import Mathlib

/-!
Verification of the FundDance incremental fetch-and-patch pipeline.

This file gives a shallow embedding, in Lean 4, of the data model and the
pure core of the operations implemented by the repository scripts
src/bk/bk_vis/bk_fetch_data.py, src/round/bk_data_ind.py,
src/bk/bk_vis/bk_top_range.py and src/bk/backup/rank_get_value.py, and
proves properties of that embedding.

Modelling conventions, used throughout:
- A pandas wide DataFrame is a structure of an ordered list of row labels,
  an ordered list of column labels, and a cell function; a cell is an
  Option String where none stands for NaN (a missing value) and some s for
  the string s.
- Python floats are modelled as rationals; a nullable float (None or NaN)
  is an Option of a rational.  None and float NaN are conflated since every
  code path under study treats them identically.
- Fallible pandas operations are modelled with Option results; in
  particular the patch_today of bk_fetch_data.py raises an alignment error
  (pandas check_bool_indexer) whenever a row of the table is missing from
  the snapshot index, which the embedding renders as none.
- pandas sorts are modelled with a stable insertion sort; pandas leaves the
  relative order of equal keys unspecified, and on the canonical inputs of
  this pipeline sort keys are pairwise distinct, so any deterministic
  choice is faithful.
-/
/-! ## Sorting: a stable insertion sort standing in for the pandas sorts -/
def insertSorted {α : Type} (le : α → α → Bool) (x : α) : List α → List α
  | [] => [x]
  | y :: ys => if le x y then x :: y :: ys else y :: insertSorted le x ys

def insertionSort {α : Type} (le : α → α → Bool) : List α → List α
  | [] => []
  | x :: xs => insertSorted le x (insertionSort le xs)

/-! ## Characters, digits and decimal rendering

These model the Python decimal renderings used by the scripts:
str on an int, percent-style fixed-point formatting, and the trailing-zero
stripping applied to the value field.
-/
def digChar : ℕ → Char
  | 0 => '0' | 1 => '1' | 2 => '2' | 3 => '3' | 4 => '4'
  | 5 => '5' | 6 => '6' | 7 => '7' | 8 => '8' | 9 => '9'
  | _ => '*'

/-- Fixed-width big-endian decimal digits, width k, of a value below 10 ^ k.
Models zero-padded rendering such as strftime with %Y, %m, %d. -/
def fixedDigits : ℕ → ℕ → List Char
  | 0, _ => []
  | k + 1, a => digChar (a / 10 ^ k) :: fixedDigits k (a % 10 ^ k)

/-- Little-endian digit characters of n, with fuel; fuel n is always enough. -/
def natCharsAux : ℕ → ℕ → List Char
  | 0, _ => []
  | _ + 1, 0 => []
  | fuel + 1, n => digChar (n % 10) :: natCharsAux fuel (n / 10)

/-- Decimal rendering of a natural number, as Python str does. -/
def natChars (n : ℕ) : List Char :=
  if n = 0 then ['0'] else (natCharsAux n n).reverse

def natStr (n : ℕ) : String := String.mk (natChars n)

/-- Decimal rendering of an integer, as Python str does. -/
def intStr (i : ℤ) : String :=
  if i < 0 then String.mk ('-' :: natChars i.natAbs) else natStr i.natAbs

/-! ## Lexicographic comparison of character lists

Models Python string comparison (and the pandas sort of string labels),
restricted to the Boolean less-or-equal test the sorts need.
-/
def charListLe : List Char → List Char → Bool
  | [], _ => true
  | _ :: _, [] => false
  | a :: as, b :: bs => if a < b then true else if b < a then false else charListLe as bs

def strLeB (s t : String) : Bool := charListLe s.data t.data

/-! ## Trade dates

The pipeline renders dates with strftime as YYYY-MM-DD, and patch_today
recognises date columns with pd.to_datetime.  parseDate models that parse
restricted to the canonical zero-padded form, the only form this pipeline
ever writes as a column name.
-/
structure Date where
  y : ℕ
  m : ℕ
  d : ℕ
deriving DecidableEq, Repr

/-- Well-formedness of a date as produced by the data source. -/
def Date.Valid (dt : Date) : Prop :=
  dt.y < 10000 ∧ 1 ≤ dt.m ∧ dt.m ≤ 12 ∧ 1 ≤ dt.d ∧ dt.d ≤ 31

instance : DecidablePred Date.Valid := fun dt => by
  unfold Date.Valid
  infer_instance

def dateLe (d1 d2 : Date) : Prop :=
  d1.y < d2.y ∨ (d1.y = d2.y ∧ (d1.m < d2.m ∨ (d1.m = d2.m ∧ d1.d ≤ d2.d)))

def dateLt (d1 d2 : Date) : Prop :=
  d1.y < d2.y ∨ (d1.y = d2.y ∧ (d1.m < d2.m ∨ (d1.m = d2.m ∧ d1.d < d2.d)))

instance : DecidableRel dateLe := fun d1 d2 => by
  unfold dateLe
  infer_instance

instance : DecidableRel dateLt := fun d1 d2 => by
  unfold dateLt
  infer_instance

def dateLeB (d1 d2 : Date) : Bool := decide (dateLe d1 d2)

def fmtDateChars (dt : Date) : List Char :=
  fixedDigits 4 dt.y ++ '-' :: (fixedDigits 2 dt.m ++ '-' :: fixedDigits 2 dt.d)

/-- strftime with format %Y-%m-%d, the column-name rendering of a date. -/
def fmtDate (dt : Date) : String := String.mk (fmtDateChars dt)

def charDigitVal : Char → Option ℕ
  | '9' => some 9 | '8' => some 8 | '7' => some 7 | '6' => some 6 | '5' => some 5
  | '4' => some 4 | '3' => some 3 | '2' => some 2 | '1' => some 1 | '0' => some 0
  | _ => none

/-- Model of pd.to_datetime applied to a potential column name, restricted to
the canonical zero-padded YYYY-MM-DD form, the only date form this pipeline
writes; every other string is treated as a non-date (NaT), matching the
try-except wrapper in patch_today. -/
def parseDateChars : List Char → Option Date
  | [c1, c2, c3, c4, s1, c5, c6, s2, c7, c8] =>
    if s1 = '-' ∧ s2 = '-' then
      (charDigitVal c1).bind fun v1 =>
      (charDigitVal c2).bind fun v2 =>
      (charDigitVal c3).bind fun v3 =>
      (charDigitVal c4).bind fun v4 =>
      (charDigitVal c5).bind fun v5 =>
      (charDigitVal c6).bind fun v6 =>
      (charDigitVal c7).bind fun v7 =>
      (charDigitVal c8).bind fun v8 =>
      let y := ((v1 * 10 + v2) * 10 + v3) * 10 + v4
      let m := v5 * 10 + v6
      let d := v7 * 10 + v8
      if 1 ≤ m ∧ m ≤ 12 ∧ 1 ≤ d ∧ d ≤ 31 then some ⟨y, m, d⟩ else none
    else none
  | _ => none

def parseDate (s : String) : Option Date := parseDateChars s.data

/-! ## Fixed-point rendering of rationals

Model of Python format specifiers .2f and .4f applied to the (float) pct,
turnover and close fields, with floats modelled as rationals; rounding is
round-half-to-even as in IEEE formatting.
-/
/-- Python abs on a float, floats modelled as rationals. -/
def ratAbs (q : ℚ) : ℚ := if q < 0 then -q else q

/-- Floor of a rational through integer floor division (kernel friendly). -/
def ratFloor (x : ℚ) : ℤ := x.num.fdiv (x.den : ℤ)

/-- Round half to even. -/
def rhe (x : ℚ) : ℤ :=
  let f := ratFloor x
  let r := x - (f : ℚ)
  if r < 1 / 2 then f
  else if 1 / 2 < r then f + 1
  else if f % 2 = 0 then f else f + 1

/-- Python fixed-point formatting with prec fractional digits (prec is 2 or 4
in this pipeline, always positive). -/
def fmtFixed (prec : ℕ) (q : ℚ) : String :=
  let mn : ℕ := (rhe (ratAbs q * 10 ^ prec)).toNat
  let ip := mn / 10 ^ prec
  let fp := mn % 10 ^ prec
  String.mk ((if q < 0 then ['-'] else []) ++ natChars ip ++ '.' :: fixedDigits prec fp)

/-- Python str.rstrip with a single strip character. -/
def rstripChar (s : String) (ch : Char) : String :=
  String.mk ((s.data.reverse.dropWhile (fun c => c = ch)).reverse)

/-- The value field rendering: format with .4f, then strip trailing zeros and
a trailing decimal point, as the source does with rstrip. -/
def fmtClose (q : ℚ) : String :=
  rstripChar (rstripChar (fmtFixed 4 q) '0') '.'

/-! ## Cell encodings

fmt_cell of src/bk/bk_vis/bk_fetch_data.py takes rank, pct, close and
renders a 3-field cell; fmt_cell of src/round/bk_data_ind.py additionally
takes turnover, up count, down count and leader stock, rendering a 7-field
cell.  A None or NaN numeric field renders as the empty string; the up and
down counts reach fmt_cell either as an int or as the empty string (the
source maps falsy values through the expression x or the empty string), so
they are modelled as Option of an integer; the leader is a plain string
whose empty value means absent.
-/
/-- str on an int field, empty for an absent field. -/
def renderInt : Option ℤ → String
  | none => ""
  | some k => intStr k

/-- Two-decimal formatting of a float field, empty for None or NaN. -/
def renderF2 : Option ℚ → String
  | none => ""
  | some q => fmtFixed 2 q

/-- Four-decimal formatting with trailing zeros and trailing point
stripped, empty for None or NaN. -/
def renderStripped : Option ℚ → String
  | none => ""
  | some q => fmtClose q

namespace BkFetchData

def fmt_cell (rank : Option ℤ) (pct : Option ℚ) (close : Option ℚ) : String :=
  let r := renderInt rank
  let p := renderF2 pct
  let c := renderStripped close
  if r = "" ∧ p = "" ∧ c = "" then "" else r ++ "|" ++ p ++ "|" ++ c

end BkFetchData

namespace BkDataInd

def fmt_cell (rank : Option ℤ) (pct : Option ℚ) (close : Option ℚ)
    (turnover : Option ℚ) (up : Option ℤ) (down : Option ℤ) (leader : String) : String :=
  let r := renderInt rank
  let p := renderF2 pct
  let c := renderStripped close
  let t := renderF2 turnover
  let u := renderInt up
  let d := renderInt down
  if r = "" ∧ p = "" ∧ c = "" ∧ t = "" ∧ u = "" ∧ d = "" ∧ leader = "" then ""
  else r ++ "|" ++ p ++ "|" ++ c ++ "|" ++ t ++ "|" ++ u ++ "|" ++ d ++ "|" ++ leader

end BkDataInd

/-! ## Rank assignment

pandas rank with ascending False and method first, per group: the rank of a
non-missing entry is one plus the number of entries in the same group that
are strictly larger, or equal but earlier in original order; missing
entries receive no rank.  This is shared by write_baseline, patch_today and
the long-format assembler of rank_get_value.py.
-/
def rankPred {n : ℕ} (f : Fin n → ℚ) (i j : Fin n) : Prop :=
  f j > f i ∨ (f j = f i ∧ j < i)

instance {n : ℕ} (f : Fin n → ℚ) (i j : Fin n) : Decidable (rankPred f i j) := by
  unfold rankPred
  infer_instance

/-- The method-first descending rank of position i within the group S. -/
def rankOf {n : ℕ} (S : Finset (Fin n)) (f : Fin n → ℚ) (i : Fin n) : ℕ :=
  1 + (S.filter (rankPred f i)).card

/-! ## The wide table and the today snapshot -/
/-- A pandas wide DataFrame: ordered row labels, ordered column labels and a
cell function.  The cell function is only meaningful on rows times cols;
none models NaN. -/
@[ext]
structure Wide where
  rows : List String
  cols : List String
  val : String → String → Option String

/-- pandas DataFrame.empty: some axis has length zero. -/
def Wide.isEmpty (W : Wide) : Prop := W.rows = [] ∨ W.cols = []

instance : DecidablePred Wide.isEmpty := fun W => by
  unfold Wide.isEmpty
  infer_instance

def emptyWide : Wide := ⟨[], [], fun _ _ => none⟩

/-- Equality of wide tables as observed by to_csv: same row order, same
column order, same cells on the table domain. -/
def Wide.equiv (W1 W2 : Wide) : Prop :=
  W1.rows = W2.rows ∧ W1.cols = W2.cols ∧
    ∀ r ∈ W1.rows, ∀ c ∈ W1.cols, W1.val r c = W2.val r c

/-- One row of the today snapshot DataFrame (df_today).  The last four
fields exist only in the bk_data_ind.py fetch; the Series get used on a
missing column returns None, which the defaults model. -/
structure TodayRec where
  bk_code : String
  bk_name : String
  close : Option ℚ
  pct_chg : Option ℚ
  turnover : Option ℚ := none
  up_count : Option ℤ := none
  down_count : Option ℤ := none
  leader : String := ""

def TodayRec.row_key (t : TodayRec) : String := t.bk_code ++ "|" ++ t.bk_name

/-- Group of snapshot positions carrying a non-missing pct_chg. -/
def snapRankSet (D : List TodayRec) : Finset (Fin D.length) :=
  Finset.univ.filter (fun j => ((D.get j).pct_chg).isSome)

def snapPct (D : List TodayRec) (j : Fin D.length) : ℚ := ((D.get j).pct_chg).getD 0

/-- The rank column patch_today adds to df_today: pandas rank with
ascending False and method first when some pct is present, NA otherwise;
positions whose pct is missing get no rank either way. -/
def snapRank (D : List TodayRec) (i : Fin D.length) : Option ℕ :=
  if (List.finRange D.length).any (fun j => ((D.get j).pct_chg).isSome) then
    if ((D.get i).pct_chg).isSome then
      some (rankOf (snapRankSet D) (snapPct D) i)
    else none
  else none

/-- First-match lookup of a label, modelling alignment of a pandas Series
by index label. -/
def lookupKey (pairs : List (String × String)) (r : String) : Option String :=
  match pairs with
  | [] => none
  | (k, v) :: rest => if r = k then some v else lookupKey rest r

/-- Sorting of the columns done at the end of both patch_today variants:
date-parseable columns first, in date order, then the remaining columns in
their original order. -/
def sortCols (cols : List String) : List String :=
  let datePairs := cols.filterMap (fun c => (parseDate c).map (fun dt => (c, dt)))
  let dateCols := (insertionSort (fun p q : String × Date => dateLeB p.2 q.2) datePairs).map Prod.fst
  dateCols ++ cols.filter (fun c => decide (¬ c ∈ dateCols))

def sortColsW (W : Wide) : Wide := ⟨W.rows, sortCols W.cols, W.val⟩

/-- The CSV artefact of a to_csv call. -/
structure CsvOut where
  table : Wide
  encoding : String
  index_label : String

namespace BkDataInd

/-- cell_new of a snapshot row in bk_data_ind.py: the 7-field cell. -/
def cellNew (D : List TodayRec) (i : Fin D.length) : String :=
  fmt_cell ((snapRank D i).map (fun k => (k : ℤ)))
    (D.get i).pct_chg (D.get i).close (D.get i).turnover
    (D.get i).up_count (D.get i).down_count (D.get i).leader

/-- The new_series of patch_today: row keys paired with new cells. -/
def snapCells (D : List TodayRec) : List (String × String) :=
  (List.finRange D.length).map (fun i => ((D.get i).row_key, cellNew D i))

/-- new_keys of patch_today: snapshot row keys absent from the index, as
pandas Index.difference produces them (deduplicated and sorted). -/
def new_keys (W : Wide) (D : List TodayRec) : List String :=
  insertionSort strLeB ((((snapCells D).map Prod.fst).filter
    (fun k => decide (¬ k ∈ W.rows))).dedup)

/-- Cells after the row append: appended rows are all NaN. -/
def patch_val1 (W : Wide) (D : List TodayRec) : String → String → Option String :=
  fun r c => if r ∈ new_keys W D then none else W.val r c

/-- Cells after creating the today column (filled with empty strings) when
it is absent. -/
def patch_val2 (W : Wide) (D : List TodayRec) (today_col : String) :
    String → String → Option String :=
  if today_col ∈ W.cols then patch_val1 W D
  else fun r c => if c = today_col then some "" else patch_val1 W D r c

/-- Cells after overwriting the today column where the aligned new cell
exists and is non-empty. -/
def patch_val3 (W : Wide) (D : List TodayRec) (today_col : String) :
    String → String → Option String :=
  fun r c =>
    if c = today_col then
      match lookupKey (snapCells D) r with
      | some s => if s = "" then patch_val2 W D today_col r c else some s
      | none => patch_val2 W D today_col r c
    else patch_val2 W D today_col r c

/-- Columns after ensuring the today column exists. -/
def patch_cols (W : Wide) (today_col : String) : List String :=
  if today_col ∈ W.cols then W.cols else W.cols ++ [today_col]

/-- patch_today of src/round/bk_data_ind.py (table transformation; the
trailing to_csv is modelled by patch_today_out below).
Steps, in source order: append one empty row per snapshot key absent from
the index (pandas Index.difference is sorted and deduplicated); create the
today column filled with empty strings when absent; overwrite the today
column only where the aligned new cell exists and is non-empty; sort the
columns. -/
def patch_today (W : Wide) (D : List TodayRec) (today_col : String) : Wide :=
  sortColsW ⟨W.rows ++ new_keys W D, patch_cols W today_col, patch_val3 W D today_col⟩

def patch_today_out (W : Wide) (D : List TodayRec) (today_col : String) : CsvOut :=
  ⟨patch_today W D today_col, "utf-8-sig", "row_key"⟩

end BkDataInd

namespace BkFetchData

/-- cell_new of a snapshot row in bk_fetch_data.py: the 3-field cell. -/
def cellNew (D : List TodayRec) (i : Fin D.length) : String :=
  fmt_cell ((snapRank D i).map (fun k => (k : ℤ))) (D.get i).pct_chg (D.get i).close

def snapCells (D : List TodayRec) : List (String × String) :=
  (List.finRange D.length).map (fun i => ((D.get i).row_key, cellNew D i))

/-- patch_today of src/bk/bk_vis/bk_fetch_data.py.  When the today column
already exists it merges through a boolean mask indexed by the snapshot
keys; pandas check_bool_indexer raises (modelled as none) whenever a row of
the table is missing from those keys.  When the column is new the snapshot
series is assigned directly, dropping snapshot keys that are not rows. -/
def patch_today (W : Wide) (D : List TodayRec) (today_col : String) : Option Wide :=
  let pairs := snapCells D
  let keys := pairs.map Prod.fst
  if today_col ∈ W.cols then
    if W.rows.all (fun r => decide (r ∈ keys)) then
      some (sortColsW ⟨W.rows, W.cols, fun r c =>
        if c = today_col then
          match lookupKey pairs r with
          | some s => if s = "" then W.val r c else some s
          | none => W.val r c
        else W.val r c⟩)
    else none
  else
    some (sortColsW ⟨W.rows, W.cols ++ [today_col], fun r c =>
      if c = today_col then lookupKey pairs r else W.val r c⟩)

def patch_today_out (W : Wide) (D : List TodayRec) (today_col : String) : Option CsvOut :=
  (patch_today W D today_col).map (fun t => ⟨t, "utf-8-sig", "row_key"⟩)

end BkFetchData

/-! ## The baseline writer -/
/-- One row of the concatenated long baseline frame. -/
structure BaseRec where
  trade_date : Date
  pct_chg : Option ℚ
  close : Option ℚ
  bk_code : String
  bk_name : String

def BaseRec.row_key (r : BaseRec) : String := r.bk_code ++ "|" ++ r.bk_name

/-- Positions of the long frame in the per-date group of dt that carry a
non-missing pct_chg; pandas groupby rank operates inside this group. -/
def blRankSet (recs : List BaseRec) (dt : Date) : Finset (Fin recs.length) :=
  Finset.univ.filter (fun i =>
    (recs.get i).trade_date = dt ∧ ((recs.get i).pct_chg).isSome)

def blPct (recs : List BaseRec) (i : Fin recs.length) : ℚ := ((recs.get i).pct_chg).getD 0

/-- The rank column of write_baseline (and of the assembler in
rank_get_value.py): groupby trade_date, rank with ascending False and
method first. -/
def blRank (recs : List BaseRec) (i : Fin recs.length) : Option ℕ :=
  if ((recs.get i).pct_chg).isSome then
    some (rankOf (blRankSet recs (recs.get i).trade_date) (blPct recs) i)
  else none

def baselineCells (recs : List BaseRec) : List (String × String × String) :=
  (List.finRange recs.length).map (fun i =>
    ((recs.get i).row_key, fmtDate (recs.get i).trade_date,
      BkFetchData.fmt_cell ((blRank recs i).map (fun k => (k : ℤ)))
        (recs.get i).pct_chg (recs.get i).close))

/-- First matching cell, modelling pivot_table with aggfunc first (the cell
values are strings, never NaN, so groupby first is plain first). -/
def findCell (cells : List (String × String × String)) (r c : String) : Option String :=
  match cells with
  | [] => none
  | (rk, ck, v) :: rest => if rk = r ∧ ck = c then some v else findCell rest r c

namespace BkFetchData

/-- write_baseline of bk_fetch_data.py (bk_data_ind.py carries the same
function): pivot the long frame to row_key times date, render dates with
strftime, sort columns lexicographically, write with utf-8-sig and
index_label row_key.  pivot_table sorts the row and column labels. -/
def write_baseline (recs : List BaseRec) : CsvOut :=
  { table :=
      { rows := insertionSort strLeB (recs.map BaseRec.row_key).dedup
        cols := insertionSort strLeB ((recs.map BaseRec.trade_date).dedup.map fmtDate)
        val := fun r c => findCell (baselineCells recs) r c }
    encoding := "utf-8-sig"
    index_label := "row_key" }

end BkFetchData

/-! ## The build_csv branch decision and the his-mode write-back -/
inductive Branch where
  | baseline
  | patchList
  | patchHis
deriving DecidableEq, Repr

/-- The branch build_csv takes (both bk_fetch_data.py and bk_data_ind.py):
read the CSV when the file exists, otherwise start from an empty frame;
bootstrap the full baseline when the frame is empty; otherwise patch only
the today column, via clist in list mode or per-board kline in his mode. -/
def build_csv_branch (csv_exists : Bool) (readTable : Wide) (today_mode : String) : Branch :=
  let wide := if csv_exists then readTable else emptyWide
  if wide.isEmpty then Branch.baseline
  else if today_mode = "list" then Branch.patchList
  else Branch.patchHis

/-- pandas reindex of the rows to a given label list: labels keep their
cells when previously present and get an all-NaN row otherwise; previous
rows absent from the list are dropped. -/
def reindexW (W : Wide) (idx : List String) : Wide :=
  ⟨idx, W.cols, fun r c => if r ∈ W.rows then W.val r c else none⟩

/-- The his-mode write-back of build_csv in bk_data_ind.py: reindex the
table to the freshly fetched board list, then patch the today column. -/
def BkDataInd.build_csv_his_writeback (W : Wide) (boards : List (String × String))
    (D : List TodayRec) (today_col : String) : CsvOut :=
  BkDataInd.patch_today_out (reindexW W (boards.map (fun b => b.1 ++ "|" ++ b.2))) D today_col

/-- The his-mode write-back of build_csv in bk_fetch_data.py. -/
def BkFetchData.build_csv_his_writeback (W : Wide) (boards : List (String × String))
    (D : List TodayRec) (today_col : String) : Option CsvOut :=
  BkFetchData.patch_today_out (reindexW W (boards.map (fun b => b.1 ++ "|" ++ b.2))) D today_col

namespace BkTopRange

/-! ## The visualizer cell parser (src/bk/bk_vis/bk_top_range.py) -/
def allDigits (cs : List Char) : Bool := cs.all (fun c => (charDigitVal c).isSome)

def digitsToNat (cs : List Char) : ℕ :=
  cs.foldl (fun acc c => acc * 10 + (charDigitVal c).getD 0) 0

/-- Python float applied to one pipe-separated field, restricted to the
plain decimal literals this pipeline emits (optional sign, digits, at most
one decimal point, at least one digit); every other string fails, as the
enclosing try-except expects. -/
def pyFloatCore (cs : List Char) : Option ℚ :=
  let intPart := cs.takeWhile (fun c => (charDigitVal c).isSome)
  let rest := cs.dropWhile (fun c => (charDigitVal c).isSome)
  match rest with
  | [] => if intPart.isEmpty then none else some ((digitsToNat intPart : ℚ))
  | '.' :: frac =>
    if allDigits frac ∧ (intPart ≠ [] ∨ frac ≠ []) then
      some ((digitsToNat intPart : ℚ) + (digitsToNat frac : ℚ) / 10 ^ frac.length)
    else none
  | _ => none

def pyFloat (s : String) : Option ℚ :=
  let cs := (((s.data.dropWhile (fun c => c = ' ')).reverse.dropWhile
    (fun c => c = ' ')).reverse)
  match cs with
  | '+' :: rest => pyFloatCore rest
  | '-' :: rest => (pyFloatCore rest).map Neg.neg
  | rest => pyFloatCore rest

/-- Python int truncation toward zero: integer T-division of the numerator
by the (positive) denominator. -/
def intTrunc (q : ℚ) : ℤ := q.num / (q.den : ℤ)

/-- The rank conversion of parse_triplet: keep the rank as an int when it
is positive and within one billionth of an integer, else NaN. -/
def rankConv (rank_raw : ℚ) : Option ℤ :=
  if 0 < rank_raw ∧ ratAbs (rank_raw - (intTrunc rank_raw : ℚ)) < 1 / 1000000000
  then some (intTrunc rank_raw) else none

/-- parse_triplet of bk_top_range.py.  The input cell is none for NaN.  A
triple component is none for NaN.  The try-except around the body maps any
failure (too few fields, non-numeric field) to an all-NaN triple. -/
def parse_triplet (cell : Option String) : Option ℤ × Option ℚ × Option ℚ :=
  match cell with
  | none => (none, none, none)
  | some s =>
    match s.splitOn "|" with
    | p0 :: p1 :: p2 :: _ =>
      match pyFloat p0, pyFloat p1, pyFloat p2 with
      | some rank_raw, some pct, some v => (rankConv rank_raw, some (pct / 100), some v)
      | _, _, _ => (none, none, none)
    | _ => (none, none, none)

/-- The first three pipe-separated fields of a cell when they all parse as
floats, following the wording of the claim (the public cell format); none
for NaN cells, short splits, or non-numeric fields. -/
def tripletFields (cell : Option String) : Option (ℚ × ℚ × ℚ) :=
  match cell with
  | none => none
  | some s =>
    match s.splitOn "|" with
    | p0 :: p1 :: p2 :: _ =>
      match pyFloat p0, pyFloat p1, pyFloat p2 with
      | some a, some b, some c => some (a, b, c)
      | _, _, _ => none
    | _ => none

end BkTopRange

/-- The column-layout property claimed for every written wide table: some
prefix of the columns carries all the date-parseable names, in strictly
ascending date order, and every remaining column is not a date. -/
def colsDateSorted (cols : List String) : Prop :=
  ∃ dc oc, cols = dc ++ oc ∧
    (∀ c ∈ dc, (parseDate c).isSome) ∧
    (∀ c ∈ oc, parseDate c = none) ∧
    (dc.filterMap parseDate).Pairwise dateLt

theorem insertSorted_perm {α : Type} (le : α → α → Bool) (x : α) (l : List α) :
    List.Perm (insertSorted le x l) (x :: l) := by
  induction l with
  | nil => simp [insertSorted]
  | cons y ys ih =>
    simp only [insertSorted]
    by_cases h : le x y = true
    · simp [h]
    · simp only [h, if_false]
      exact (ih.cons y).trans (List.Perm.swap x y ys)

theorem insertionSort_perm {α : Type} (le : α → α → Bool) (l : List α) :
    List.Perm (insertionSort le l) l := by
  induction l with
  | nil => simp [insertionSort]
  | cons x xs ih =>
    simpa [insertionSort] using (insertSorted_perm le x (insertionSort le xs)).trans (ih.cons x)

theorem mem_insertionSort {α : Type} (le : α → α → Bool) (l : List α) (a : α) :
    a ∈ insertionSort le l ↔ a ∈ l :=
  (insertionSort_perm le l).mem_iff

theorem insertSorted_pairwise {α : Type} (le : α → α → Bool)
    (htot : ∀ a b, le a b = true ∨ le b a = true)
    (htrans : ∀ a b c, le a b = true → le b c = true → le a c = true)
    (x : α) (l : List α) (hl : l.Pairwise (fun a b => le a b = true)) :
    (insertSorted le x l).Pairwise (fun a b => le a b = true) := by
  induction l with
  | nil => simp [insertSorted]
  | cons y ys ih =>
    rcases List.pairwise_cons.mp hl with ⟨hy, hys⟩
    simp only [insertSorted]
    by_cases h : le x y = true
    · rw [if_pos h]
      refine List.pairwise_cons.mpr ⟨?_, hl⟩
      intro z hz
      rcases List.mem_cons.mp hz with rfl | hz
      · exact h
      · exact htrans x y z h (hy z hz)
    · rw [if_neg h]
      refine List.pairwise_cons.mpr ⟨?_, ih hys⟩
      intro z hz
      have hz' : z = x ∨ z ∈ ys := by
        have hmem := (insertSorted_perm le x ys).mem_iff.mp hz
        simpa using hmem
      rcases hz' with rfl | hz'
      · rcases htot z y with h' | h'
        · exact absurd h' h
        · exact h'
      · exact hy z hz'

theorem insertionSort_pairwise {α : Type} (le : α → α → Bool)
    (htot : ∀ a b, le a b = true ∨ le b a = true)
    (htrans : ∀ a b c, le a b = true → le b c = true → le a c = true)
    (l : List α) :
    (insertionSort le l).Pairwise (fun a b => le a b = true) := by
  induction l with
  | nil => simp [insertionSort]
  | cons x xs ih => exact insertSorted_pairwise le htot htrans x _ ih

theorem insertionSort_eq_self {α : Type} (le : α → α → Bool) (l : List α)
    (hl : l.Pairwise (fun a b => le a b = true)) :
    insertionSort le l = l := by
  induction l with
  | nil => rfl
  | cons x xs ih =>
    rcases List.pairwise_cons.mp hl with ⟨hx, hxs⟩
    have hxs' : insertionSort le xs = xs := ih hxs
    simp only [insertionSort, hxs']
    cases xs with
    | nil => rfl
    | cons y ys => simp [insertSorted, hx y (by simp)]

theorem insertionSort_nodup {α : Type} (le : α → α → Bool) (l : List α)
    (hl : l.Nodup) : (insertionSort le l).Nodup :=
  ((insertionSort_perm le l).nodup_iff).mpr hl

theorem digChar_lt_iff {x y : ℕ} (hx : x < 10) (hy : y < 10) :
    digChar x < digChar y ↔ x < y := by
  interval_cases x <;> interval_cases y <;> decide

theorem digChar_ne_dot {x : ℕ} (hx : x < 10) : digChar x ≠ '.' := by
  interval_cases x <;> decide

theorem digChar_ne_zeroChar_iff {x : ℕ} (hx : x < 10) : digChar x = '0' ↔ x = 0 := by
  interval_cases x <;> decide

theorem natCharsAux_digits {fuel n : ℕ} {c : Char} (hc : c ∈ natCharsAux fuel n) :
    ∃ d, d < 10 ∧ c = digChar d := by
  induction fuel generalizing n with
  | zero => simp [natCharsAux] at hc
  | succ fuel ih =>
    cases n with
    | zero => simp [natCharsAux] at hc
    | succ m =>
      simp only [natCharsAux, List.mem_cons] at hc
      rcases hc with rfl | hc
      · exact ⟨(m + 1) % 10, Nat.mod_lt _ (by norm_num), rfl⟩
      · exact ih hc

theorem natChars_digits {n : ℕ} {c : Char} (hc : c ∈ natChars n) :
    ∃ d, d < 10 ∧ c = digChar d := by
  by_cases h : n = 0
  · subst h
    simp only [natChars, if_true, List.mem_singleton] at hc
    exact ⟨0, by norm_num, hc⟩
  · simp only [natChars, h, if_false, List.mem_reverse] at hc
    exact natCharsAux_digits hc

theorem natChars_ne_nil (n : ℕ) : natChars n ≠ [] := by
  by_cases h : n = 0
  · subst h; simp [natChars]
  · simp only [natChars, h, if_false]
    cases n with
    | zero => exact absurd rfl h
    | succ m => simp [natCharsAux]

theorem natStr_ne_empty (n : ℕ) : natStr n ≠ "" := by
  intro h
  have : natChars n = [] := by
    have := congrArg String.data h
    simpa [natStr] using this
  exact natChars_ne_nil n this

theorem intStr_ne_empty (i : ℤ) : intStr i ≠ "" := by
  unfold intStr
  by_cases h : i < 0
  · simp only [h, if_true]
    intro hcontra
    have := congrArg String.data hcontra
    simp at this
  · simp only [h, if_false]
    exact natStr_ne_empty _

theorem charListLe_total (l1 l2 : List Char) :
    charListLe l1 l2 = true ∨ charListLe l2 l1 = true := by
  induction l1 generalizing l2 with
  | nil => left; rfl
  | cons a as ih =>
    cases l2 with
    | nil => right; rfl
    | cons b bs =>
      rcases lt_trichotomy a b with h | h | h
      · left; simp [charListLe, h]
      · subst h
        rcases ih bs with h' | h'
        · left; simpa [charListLe] using h'
        · right; simpa [charListLe] using h'
      · right; simp [charListLe, h]

theorem charListLe_trans (l1 l2 l3 : List Char)
    (h12 : charListLe l1 l2 = true) (h23 : charListLe l2 l3 = true) :
    charListLe l1 l3 = true := by
  induction l1 generalizing l2 l3 with
  | nil => rfl
  | cons a as ih =>
    cases l2 with
    | nil => simp [charListLe] at h12
    | cons b bs =>
      cases l3 with
      | nil => simp [charListLe] at h23
      | cons c cs =>
        simp only [charListLe] at h12 h23 ⊢
        rcases lt_trichotomy a b with hab | hab | hab
        · rcases lt_trichotomy b c with hbc | hbc | hbc
          · simp [lt_trans hab hbc]
          · subst hbc; simp [hab]
          · rcases lt_trichotomy a c with hac | hac | hac
            · simp [hac]
            · subst hac; simp [hbc, not_lt_of_lt hbc] at h23
            · simp [hbc, not_lt_of_lt hbc] at h23
        · subst hab
          rcases lt_trichotomy a c with hac | hac | hac
          · simp [hac]
          · subst hac
            simp only [lt_irrefl, if_false] at h12 h23 ⊢
            exact ih bs cs h12 h23
          · simp [hac, not_lt_of_lt hac] at h23
        · simp [hab, not_lt_of_lt hab] at h12

theorem charListLe_cons_same (c : Char) (l1 l2 : List Char) :
    charListLe (c :: l1) (c :: l2) = charListLe l1 l2 := by
  simp [charListLe]

theorem strLeB_total (s t : String) : strLeB s t = true ∨ strLeB t s = true :=
  charListLe_total s.data t.data

theorem strLeB_trans (s t u : String) (h1 : strLeB s t = true) (h2 : strLeB t u = true) :
    strLeB s u = true :=
  charListLe_trans s.data t.data u.data h1 h2

/-! ## Comparing fixed-width decimal renderings -/
theorem fixedDigits_lt_pow {k a : ℕ} (ha : a < 10 ^ k) (hk : 0 < k) :
    a / 10 ^ (k - 1) < 10 := by
  rcases Nat.exists_eq_add_of_lt hk with ⟨k', hk'⟩
  have hkk : k - 1 = k' := by omega
  rw [hkk]
  have hcast : k = k' + 1 := by omega
  rw [hcast] at ha
  have : a < 10 * 10 ^ k' := by
    calc a < 10 ^ (k' + 1) := ha
    _ = 10 * 10 ^ k' := by ring
  exact Nat.div_lt_of_lt_mul (by omega)

theorem charListLe_fixedDigits_append {k a b : ℕ} (ha : a < 10 ^ k) (hb : b < 10 ^ k)
    (r1 r2 : List Char) :
    charListLe (fixedDigits k a ++ r1) (fixedDigits k b ++ r2) =
      if a < b then true else if b < a then false else charListLe r1 r2 := by
  induction k generalizing a b with
  | zero =>
    have ha0 : a = 0 := by simpa using ha
    have hb0 : b = 0 := by simpa using hb
    subst ha0; subst hb0
    simp [fixedDigits]
  | succ k ih =>
    have hP : (0 : ℕ) < 10 ^ k := Nat.pos_pow_of_pos k (by norm_num)
    have ha2 : a % 10 ^ k < 10 ^ k := Nat.mod_lt _ hP
    have hb2 : b % 10 ^ k < 10 ^ k := Nat.mod_lt _ hP
    have haeq : a = a / 10 ^ k * 10 ^ k + a % 10 ^ k := by
      rw [Nat.mul_comm (a / 10 ^ k) (10 ^ k)]
      exact (Nat.div_add_mod a _).symm
    have hbeq : b = b / 10 ^ k * 10 ^ k + b % 10 ^ k := by
      rw [Nat.mul_comm (b / 10 ^ k) (10 ^ k)]
      exact (Nat.div_add_mod b _).symm
    have hd1 : a / 10 ^ k < 10 := Nat.div_lt_of_lt_mul (by rw [← pow_succ]; exact ha)
    have hd2 : b / 10 ^ k < 10 := Nat.div_lt_of_lt_mul (by rw [← pow_succ]; exact hb)
    simp only [fixedDigits, List.cons_append, charListLe]
    rcases lt_trichotomy (a / 10 ^ k) (b / 10 ^ k) with hcmp | hcmp | hcmp
    · have hchar : digChar (a / 10 ^ k) < digChar (b / 10 ^ k) :=
        (digChar_lt_iff hd1 hd2).mpr hcmp
      have hab : a < b := by
        calc a = a / 10 ^ k * 10 ^ k + a % 10 ^ k := haeq
        _ < a / 10 ^ k * 10 ^ k + 10 ^ k := by omega
        _ = (a / 10 ^ k + 1) * 10 ^ k := by ring
        _ ≤ b / 10 ^ k * 10 ^ k := Nat.mul_le_mul_right _ (by omega)
        _ ≤ b := by omega
      simp [hchar, hab]
    · rw [hcmp, if_neg (lt_irrefl _), if_neg (lt_irrefl _)]
      simp only [List.append_eq]
      rw [ih ha2 hb2]
      have hiff : a < b ↔ a % 10 ^ k < b % 10 ^ k := by
        rw [hcmp] at haeq
        omega
      have hiff2 : b < a ↔ b % 10 ^ k < a % 10 ^ k := by
        rw [hcmp] at haeq
        omega
      by_cases hlt : a % 10 ^ k < b % 10 ^ k
      · rw [if_pos (hiff.mpr hlt), if_pos hlt]
      · rw [if_neg (fun h => hlt (hiff.mp h)), if_neg hlt]
        by_cases hgt : b % 10 ^ k < a % 10 ^ k
        · rw [if_pos (hiff2.mpr hgt), if_pos hgt]
        · rw [if_neg (fun h => hgt (hiff2.mp h)), if_neg hgt]
    · have hchar : digChar (b / 10 ^ k) < digChar (a / 10 ^ k) :=
        (digChar_lt_iff hd2 hd1).mpr hcmp
      have hba : b < a := by
        calc b = b / 10 ^ k * 10 ^ k + b % 10 ^ k := hbeq
        _ < b / 10 ^ k * 10 ^ k + 10 ^ k := by omega
        _ = (b / 10 ^ k + 1) * 10 ^ k := by ring
        _ ≤ a / 10 ^ k * 10 ^ k := Nat.mul_le_mul_right _ (by omega)
        _ ≤ a := by omega
      have hnot : ¬ digChar (a / 10 ^ k) < digChar (b / 10 ^ k) := by
        intro h
        exact absurd ((digChar_lt_iff hd1 hd2).mp h) (by omega)
      simp [hnot, hchar, hba, Nat.not_lt_of_lt hba]

theorem dateLeB_total (d1 d2 : Date) : dateLeB d1 d2 = true ∨ dateLeB d2 d1 = true := by
  unfold dateLeB
  rcases Nat.lt_trichotomy d1.y d2.y with h | h | h
  · left; simp [dateLe, h]
  · rcases Nat.lt_trichotomy d1.m d2.m with h' | h' | h'
    · left; simp [dateLe, h, h']
    · rcases Nat.le_total d1.d d2.d with h'' | h''
      · left; simp [dateLe, h, h', h'']
      · right; simp [dateLe, h.symm, h'.symm, h'']
    · right; simp [dateLe, h.symm, h']
  · right; simp [dateLe, h]

theorem dateLeB_trans (d1 d2 d3 : Date) (h12 : dateLeB d1 d2 = true)
    (h23 : dateLeB d2 d3 = true) : dateLeB d1 d3 = true := by
  unfold dateLeB at h12 h23 ⊢
  rw [decide_eq_true_iff] at h12 h23 ⊢
  unfold dateLe at h12 h23 ⊢
  omega

theorem dateLe_antisymm {d1 d2 : Date} (h12 : dateLe d1 d2) (h21 : dateLe d2 d1) :
    d1 = d2 := by
  unfold dateLe at h12 h21
  rcases d1 with ⟨y1, m1, e1⟩
  rcases d2 with ⟨y2, m2, e2⟩
  simp only [Date.mk.injEq]
  simp only at h12 h21
  omega

theorem dateLt_of_le_of_ne {d1 d2 : Date} (hle : dateLe d1 d2) (hne : d1 ≠ d2) :
    dateLt d1 d2 := by
  unfold dateLe at hle
  unfold dateLt
  rcases d1 with ⟨y1, m1, e1⟩
  rcases d2 with ⟨y2, m2, e2⟩
  simp only [ne_eq, Date.mk.injEq, not_and] at hne
  simp only at hle ⊢
  by_cases hy : y1 = y2
  · by_cases hm : m1 = m2
    · have hd : e1 ≠ e2 := fun h => hne hy hm h
      omega
    · omega
  · omega

theorem strLeB_fmtDate (d1 d2 : Date) (h1 : d1.Valid) (h2 : d2.Valid) :
    strLeB (fmtDate d1) (fmtDate d2) = true ↔ dateLe d1 d2 := by
  obtain ⟨hy1, hm1a, hm1b, hd1a, hd1b⟩ := h1
  obtain ⟨hy2, hm2a, hm2b, hd2a, hd2b⟩ := h2
  have hpow4 : (10 : ℕ) ^ 4 = 10000 := by norm_num
  have hpow2 : (10 : ℕ) ^ 2 = 100 := by norm_num
  have hym1 : d1.y < 10 ^ 4 := by omega
  have hym2 : d2.y < 10 ^ 4 := by omega
  have hmm1 : d1.m < 10 ^ 2 := by omega
  have hmm2 : d2.m < 10 ^ 2 := by omega
  have hdd1 : d1.d < 10 ^ 2 := by omega
  have hdd2 : d2.d < 10 ^ 2 := by omega
  have hday := charListLe_fixedDigits_append hdd1 hdd2 ([] : List Char) []
  simp only [List.append_nil] at hday
  have hnil : charListLe [] [] = true := rfl
  rw [hnil] at hday
  unfold strLeB fmtDate fmtDateChars
  simp only
  rw [charListLe_fixedDigits_append hym1 hym2, charListLe_cons_same,
    charListLe_fixedDigits_append hmm1 hmm2, charListLe_cons_same, hday]
  rcases d1 with ⟨y1, m1, e1⟩
  rcases d2 with ⟨y2, m2, e2⟩
  simp only at *
  unfold dateLe
  simp only
  split_ifs <;> simp <;> omega

theorem charDigitVal_digChar {d : ℕ} (hd : d < 10) : charDigitVal (digChar d) = some d := by
  interval_cases d <;> rfl

theorem charDigitVal_inv {c : Char} {v : ℕ} (h : charDigitVal c = some v) :
    v < 10 ∧ c = digChar v := by
  unfold charDigitVal at h
  split at h <;> simp_all <;> subst h <;> decide

theorem fixedDigits_four (y : ℕ) :
    fixedDigits 4 y = [digChar (y / 1000), digChar (y % 1000 / 100),
      digChar (y % 1000 % 100 / 10), digChar (y % 1000 % 100 % 10)] := by
  simp [fixedDigits]

theorem fixedDigits_two (m : ℕ) :
    fixedDigits 2 m = [digChar (m / 10), digChar (m % 10)] := by
  simp [fixedDigits]

theorem parseDate_fmtDate {dt : Date} (h : dt.Valid) : parseDate (fmtDate dt) = some dt := by
  obtain ⟨hy, hma, hmb, hda, hdb⟩ := h
  unfold parseDate fmtDate fmtDateChars
  rw [fixedDigits_four, fixedDigits_two, fixedDigits_two]
  simp only [List.cons_append, List.nil_append]
  simp only [parseDateChars]
  rw [if_pos (by simp)]
  rw [charDigitVal_digChar (by omega), charDigitVal_digChar (by omega),
    charDigitVal_digChar (by omega), charDigitVal_digChar (by omega),
    charDigitVal_digChar (by omega), charDigitVal_digChar (by omega),
    charDigitVal_digChar (by omega), charDigitVal_digChar (by omega)]
  simp only [Option.some_bind]
  rw [if_pos (by refine ⟨by omega, by omega, by omega, by omega⟩)]
  congr 1
  rcases dt with ⟨y, m, d⟩
  simp only at *
  congr 1 <;> omega

theorem parseDateChars_inv {cs : List Char} {dt : Date}
    (h : parseDateChars cs = some dt) : cs = fmtDateChars dt ∧ dt.Valid := by
  match cs with
  | [] => simp [parseDateChars] at h
  | [_] => simp [parseDateChars] at h
  | [_, _] => simp [parseDateChars] at h
  | [_, _, _] => simp [parseDateChars] at h
  | [_, _, _, _] => simp [parseDateChars] at h
  | [_, _, _, _, _] => simp [parseDateChars] at h
  | [_, _, _, _, _, _] => simp [parseDateChars] at h
  | [_, _, _, _, _, _, _] => simp [parseDateChars] at h
  | [_, _, _, _, _, _, _, _] => simp [parseDateChars] at h
  | [_, _, _, _, _, _, _, _, _] => simp [parseDateChars] at h
  | _ :: _ :: _ :: _ :: _ :: _ :: _ :: _ :: _ :: _ :: _ :: _ => simp [parseDateChars] at h
  | [c1, c2, c3, c4, s1, c5, c6, s2, c7, c8] =>
    simp only [parseDateChars] at h
    by_cases hdash : s1 = '-' ∧ s2 = '-'
    · rw [if_pos hdash] at h
      obtain ⟨hs1, hs2⟩ := hdash
      subst hs1; subst hs2
      rcases hv1 : charDigitVal c1 with _ | v1
      · rw [hv1] at h; simp at h
      rcases hv2 : charDigitVal c2 with _ | v2
      · rw [hv1, hv2] at h; simp at h
      rcases hv3 : charDigitVal c3 with _ | v3
      · rw [hv1, hv2, hv3] at h; simp at h
      rcases hv4 : charDigitVal c4 with _ | v4
      · rw [hv1, hv2, hv3, hv4] at h; simp at h
      rcases hv5 : charDigitVal c5 with _ | v5
      · rw [hv1, hv2, hv3, hv4, hv5] at h; simp at h
      rcases hv6 : charDigitVal c6 with _ | v6
      · rw [hv1, hv2, hv3, hv4, hv5, hv6] at h; simp at h
      rcases hv7 : charDigitVal c7 with _ | v7
      · rw [hv1, hv2, hv3, hv4, hv5, hv6, hv7] at h; simp at h
      rcases hv8 : charDigitVal c8 with _ | v8
      · rw [hv1, hv2, hv3, hv4, hv5, hv6, hv7, hv8] at h; simp at h
      rw [hv1, hv2, hv3, hv4, hv5, hv6, hv7, hv8] at h
      simp only [Option.some_bind] at h
      obtain ⟨hb1, he1⟩ := charDigitVal_inv hv1
      obtain ⟨hb2, he2⟩ := charDigitVal_inv hv2
      obtain ⟨hb3, he3⟩ := charDigitVal_inv hv3
      obtain ⟨hb4, he4⟩ := charDigitVal_inv hv4
      obtain ⟨hb5, he5⟩ := charDigitVal_inv hv5
      obtain ⟨hb6, he6⟩ := charDigitVal_inv hv6
      obtain ⟨hb7, he7⟩ := charDigitVal_inv hv7
      obtain ⟨hb8, he8⟩ := charDigitVal_inv hv8
      by_cases hrange : 1 ≤ v5 * 10 + v6 ∧ v5 * 10 + v6 ≤ 12 ∧ 1 ≤ v7 * 10 + v8 ∧ v7 * 10 + v8 ≤ 31
      · rw [if_pos hrange] at h
        have hdt : dt = ⟨((v1 * 10 + v2) * 10 + v3) * 10 + v4, v5 * 10 + v6, v7 * 10 + v8⟩ :=
          (Option.some_inj.mp h).symm
        subst hdt
        constructor
        · unfold fmtDateChars
          rw [fixedDigits_four, fixedDigits_two, fixedDigits_two]
          simp only [List.cons_append, List.nil_append]
          subst he1; subst he2; subst he3; subst he4
          subst he5; subst he6; subst he7; subst he8
          simp only [List.cons.injEq]
          refine ⟨by congr 1; omega, by congr 1; omega, by congr 1; omega, by congr 1; omega,
            trivial, by congr 1; omega, by congr 1; omega, trivial, by congr 1; omega,
            by congr 1; omega, trivial⟩
        · unfold Date.Valid
          simp only
          omega
      · rw [if_neg hrange] at h
        simp at h
    · rw [if_neg hdash] at h
      simp at h

theorem parseDate_inv {s : String} {dt : Date} (h : parseDate s = some dt) :
    s = fmtDate dt ∧ dt.Valid := by
  obtain ⟨hdata, hvalid⟩ := parseDateChars_inv h
  refine ⟨?_, hvalid⟩
  cases s with
  | mk data =>
    simp only [String.data] at hdata
    simp only [fmtDate]
    exact congrArg String.mk hdata

theorem parseDate_injective {s1 s2 : String} {dt : Date}
    (h1 : parseDate s1 = some dt) (h2 : parseDate s2 = some dt) : s1 = s2 := by
  rw [(parseDate_inv h1).1, (parseDate_inv h2).1]

theorem fmtFixed_ne_empty (prec : ℕ) (q : ℚ) : fmtFixed prec q ≠ "" := by
  unfold fmtFixed
  intro h
  have hdata := congrArg String.data h
  simp only [String.data] at hdata
  rcases hne : natChars ((rhe (ratAbs q * 10 ^ prec)).toNat / 10 ^ prec) with _ | ⟨c, cs⟩
  · exact natChars_ne_nil _ hne
  · rw [hne] at hdata
    by_cases hq : q < 0 <;> simp [hq] at hdata

theorem rstripChar_eq_empty_iff (s : String) (ch : Char) :
    rstripChar s ch = "" ↔ ∀ c ∈ s.data, c = ch := by
  unfold rstripChar
  constructor
  · intro h c hc
    have hdata := congrArg String.data h
    simp only [String.data] at hdata
    have hnil : s.data.reverse.dropWhile (fun c => c = ch) = [] := by
      have := congrArg List.reverse hdata
      simpa using this
    have hall := List.dropWhile_eq_nil_iff.mp hnil
    have : decide (c = ch) = true := hall c (List.mem_reverse.mpr hc)
    simpa using this
  · intro h
    have hnil : s.data.reverse.dropWhile (fun c => c = ch) = [] := by
      rw [List.dropWhile_eq_nil_iff]
      intro c hc
      simpa using h c (List.mem_reverse.mp hc)
    rw [hnil]
    rfl

theorem rstripChar_prefix (s : String) (ch : Char) :
    (rstripChar s ch).data.IsPrefix s.data := by
  unfold rstripChar
  simp only [String.data]
  have hsuf : (s.data.reverse.dropWhile (fun c => c = ch)).IsSuffix s.data.reverse :=
    List.dropWhile_suffix _
  have := List.reverse_prefix.mpr hsuf
  simpa using this

theorem dot_mem_fmtFixed (prec : ℕ) (q : ℚ) : '.' ∈ (fmtFixed prec q).data := by
  unfold fmtFixed
  simp

theorem fmtClose_ne_empty (q : ℚ) : fmtClose q ≠ "" := by
  unfold fmtClose
  intro h
  have hall := (rstripChar_eq_empty_iff _ _).mp h
  rcases hs1 : (rstripChar (fmtFixed 4 q) '0').data with _ | ⟨c, cs⟩
  · have hempty : rstripChar (fmtFixed 4 q) '0' = "" := by
      rcases hstr : rstripChar (fmtFixed 4 q) '0' with ⟨data⟩
      rw [hstr] at hs1
      simp only [String.data] at hs1
      rw [hs1]
    have hzeros := (rstripChar_eq_empty_iff _ _).mp hempty
    have hdot := hzeros '.' (dot_mem_fmtFixed 4 q)
    exact absurd hdot (by decide)
  · have hc : c = '.' := hall c (by rw [hs1]; exact List.mem_cons_self c cs)
    obtain ⟨t, ht⟩ := rstripChar_prefix (fmtFixed 4 q) '0'
    rw [hs1, hc] at ht
    unfold fmtFixed at ht
    simp only [String.data] at ht
    by_cases hq : q < 0
    · rw [if_pos hq] at ht
      simp only [List.cons_append, List.singleton_append] at ht
      have hh := congrArg (fun l => l.head?) ht
      simp at hh
    · rw [if_neg hq] at ht
      simp only [List.nil_append] at ht
      rcases hnc : natChars ((rhe (ratAbs q * 10 ^ 4)).toNat / 10 ^ 4) with _ | ⟨c0, cs0⟩
      · exact natChars_ne_nil _ hnc
      · rw [hnc] at ht
        simp only [List.cons_append] at ht
        have hc0 : '.' = c0 := by
          have := congrArg (fun l => l.head?) ht
          simpa using this
        have hc0mem : c0 ∈ natChars ((rhe (ratAbs q * 10 ^ 4)).toNat / 10 ^ 4) := by
          rw [hnc]; exact List.mem_cons_self c0 cs0
        obtain ⟨d, hd, hdeq⟩ := natChars_digits hc0mem
        rw [hdeq] at hc0
        exact absurd hc0.symm (digChar_ne_dot hd)

theorem rankPred_irrefl {n : ℕ} (f : Fin n → ℚ) (i : Fin n) : ¬ rankPred f i i := by
  unfold rankPred
  intro h
  rcases h with h | ⟨_, h⟩
  · exact lt_irrefl _ h
  · exact lt_irrefl _ h

theorem rankPred_trans {n : ℕ} (f : Fin n → ℚ) {x i j : Fin n}
    (h1 : rankPred f i x) (h2 : rankPred f j i) : rankPred f j x := by
  unfold rankPred at h1 h2 ⊢
  rcases h1 with h1 | ⟨h1e, h1l⟩ <;> rcases h2 with h2 | ⟨h2e, h2l⟩
  · left; exact lt_trans h2 h1
  · left; rw [← h2e]; exact h1
  · left; rw [h1e]; exact h2
  · right; exact ⟨h1e.trans h2e, lt_trans h1l h2l⟩

theorem rankPred_total {n : ℕ} (f : Fin n → ℚ) {i j : Fin n} (hne : i ≠ j) :
    rankPred f j i ∨ rankPred f i j := by
  unfold rankPred
  rcases lt_trichotomy (f i) (f j) with h | h | h
  · right; left; exact h
  · rcases lt_trichotomy i j with h' | h' | h'
    · left; right; exact ⟨h, h'⟩
    · exact absurd h' hne
    · right; right; exact ⟨h.symm, h'⟩
  · left; left; exact h

theorem rankOf_lt_rankOf {n : ℕ} (S : Finset (Fin n)) (f : Fin n → ℚ) {i j : Fin n}
    (hi : i ∈ S) (hij : rankPred f j i) : rankOf S f i < rankOf S f j := by
  unfold rankOf
  have hsub : S.filter (rankPred f i) ⊂ S.filter (rankPred f j) := by
    constructor
    · intro x hx
      rcases Finset.mem_filter.mp hx with ⟨hxS, hxi⟩
      exact Finset.mem_filter.mpr ⟨hxS, rankPred_trans f hxi hij⟩
    · intro hcon
      have hiin : i ∈ S.filter (rankPred f j) := Finset.mem_filter.mpr ⟨hi, hij⟩
      have hiin' := hcon hiin
      exact rankPred_irrefl f i (Finset.mem_filter.mp hiin').2
  have := Finset.card_lt_card hsub
  omega

theorem rankOf_le_card {n : ℕ} (S : Finset (Fin n)) (f : Fin n → ℚ) {i : Fin n}
    (hi : i ∈ S) : rankOf S f i ≤ S.card := by
  unfold rankOf
  have hsub : S.filter (rankPred f i) ⊆ S.erase i := by
    intro x hx
    rcases Finset.mem_filter.mp hx with ⟨hxS, hxi⟩
    refine Finset.mem_erase.mpr ⟨?_, hxS⟩
    intro hxeq
    subst hxeq
    exact rankPred_irrefl f x hxi
  have hcard := Finset.card_le_card hsub
  rw [Finset.card_erase_of_mem hi] at hcard
  have hpos : 1 ≤ S.card := Finset.card_pos.mpr ⟨i, hi⟩
  omega

theorem rankOf_image {n : ℕ} (S : Finset (Fin n)) (f : Fin n → ℚ) :
    S.image (rankOf S f) = Finset.Icc 1 S.card := by
  have hinj : Set.InjOn (rankOf S f) S := by
    intro i hi j hj hij
    by_contra hne
    rcases rankPred_total f hne with h | h
    · have := rankOf_lt_rankOf S f hi h
      omega
    · have := rankOf_lt_rankOf S f hj h
      omega
  have hsubset : S.image (rankOf S f) ⊆ Finset.Icc 1 S.card := by
    intro r hr
    rcases Finset.mem_image.mp hr with ⟨i, hi, hri⟩
    subst hri
    refine Finset.mem_Icc.mpr ⟨?_, rankOf_le_card S f hi⟩
    unfold rankOf
    omega
  have hcard : (S.image (rankOf S f)).card = S.card := Finset.card_image_of_injOn hinj
  refine Finset.eq_of_subset_of_card_le hsubset ?_
  rw [hcard, Nat.card_Icc]
  omega

/-! ## Helper lemmas about the column sort -/
theorem mem_dateColsOf {cols : List String} {c : String} :
    (c ∈ (insertionSort (fun p q : String × Date => dateLeB p.2 q.2)
        (cols.filterMap (fun c => (parseDate c).map (fun dt => (c, dt))))).map Prod.fst) ↔
      (c ∈ cols ∧ (parseDate c).isSome) := by
  constructor
  · intro h
    rcases List.mem_map.mp h with ⟨⟨n, dt⟩, hmem, hfst⟩
    simp only at hfst
    subst hfst
    have hmem' := (insertionSort_perm _ _).mem_iff.mp hmem
    rcases List.mem_filterMap.mp hmem' with ⟨n', hn', hparse⟩
    rcases hp : parseDate n' with _ | dt'
    · rw [hp] at hparse; simp at hparse
    · rw [hp] at hparse
      have heq : n' = n ∧ dt' = dt := by
        simpa [Prod.ext_iff] using hparse
      obtain ⟨h1, _⟩ := heq
      subst h1
      exact ⟨hn', by rw [hp]; rfl⟩
  · rintro ⟨hc, hsome⟩
    rcases hp : parseDate c with _ | dt
    · rw [hp] at hsome; simp at hsome
    · refine List.mem_map.mpr ⟨(c, dt), ?_, rfl⟩
      refine (insertionSort_perm _ _).mem_iff.mpr ?_
      exact List.mem_filterMap.mpr ⟨c, hc, by rw [hp]; rfl⟩

theorem mem_sortCols {cols : List String} {c : String} :
    c ∈ sortCols cols ↔ c ∈ cols := by
  unfold sortCols
  simp only [List.mem_append]
  constructor
  · intro h
    rcases h with h | h
    · exact (mem_dateColsOf.mp h).1
    · exact (List.mem_filter.mp h).1
  · intro h
    by_cases hd : (parseDate c).isSome
    · left; exact mem_dateColsOf.mpr ⟨h, hd⟩
    · right
      refine List.mem_filter.mpr ⟨h, ?_⟩
      rw [decide_eq_true_iff]
      intro hmem
      exact hd (mem_dateColsOf.mp hmem).2

theorem filterMap_dates_of_pairs (P : List (String × Date))
    (hP : ∀ p ∈ P, parseDate p.1 = some p.2) :
    (P.map Prod.fst).filterMap (fun c => (parseDate c).map (fun dt => (c, dt))) = P := by
  induction P with
  | nil => rfl
  | cons p rest ih =>
    rcases p with ⟨n, dt⟩
    have hp : parseDate n = some dt := hP (n, dt) (List.mem_cons_self _ _)
    simp only [List.map_cons, List.filterMap_cons, hp]
    simp only [Option.map_some']
    rw [ih (fun q hq => hP q (List.mem_cons_of_mem _ hq))]

theorem filterMap_snd_of_pairs (P : List (String × Date))
    (hP : ∀ p ∈ P, parseDate p.1 = some p.2) :
    (P.map Prod.fst).filterMap parseDate = P.map Prod.snd := by
  induction P with
  | nil => rfl
  | cons p rest ih =>
    rcases p with ⟨n, dt⟩
    have hp : parseDate n = some dt := hP (n, dt) (List.mem_cons_self _ _)
    simp only [List.map_cons, List.filterMap_cons, hp]
    rw [ih (fun q hq => hP q (List.mem_cons_of_mem _ hq))]

theorem datePairs_prop (cols : List String) :
    ∀ p ∈ cols.filterMap (fun c => (parseDate c).map (fun dt => (c, dt))),
      parseDate p.1 = some p.2 := by
  intro p hp
  rcases List.mem_filterMap.mp hp with ⟨c, _, hc⟩
  rcases hparse : parseDate c with _ | dt
  · rw [hparse] at hc; simp at hc
  · rw [hparse] at hc
    have : (c, dt) = p := by simpa using hc
    rw [← this]
    exact hparse

theorem sortedDatePairs_prop (cols : List String) :
    ∀ p ∈ insertionSort (fun p q : String × Date => dateLeB p.2 q.2)
      (cols.filterMap (fun c => (parseDate c).map (fun dt => (c, dt)))),
      parseDate p.1 = some p.2 := by
  intro p hp
  exact datePairs_prop cols p ((insertionSort_perm _ _).mem_iff.mp hp)

theorem sortCols_sortCols (cols : List String) : sortCols (sortCols cols) = sortCols cols := by
  unfold sortCols
  simp only
  set P := insertionSort (fun p q : String × Date => dateLeB p.2 q.2)
    (cols.filterMap (fun c => (parseDate c).map (fun dt => (c, dt)))) with hP
  set dc := P.map Prod.fst with hdc
  set oc := cols.filter (fun c => decide (¬ c ∈ dc)) with hoc
  have hprop : ∀ p ∈ P, parseDate p.1 = some p.2 := by
    rw [hP]; exact sortedDatePairs_prop cols
  have hocnone : ∀ c ∈ oc, parseDate c = none := by
    intro c hc
    rcases List.mem_filter.mp hc with ⟨hcc, hnotin⟩
    rw [decide_eq_true_iff] at hnotin
    rcases hparse : parseDate c with _ | dt
    · rfl
    · exfalso
      apply hnotin
      rw [hdc, hP]
      exact mem_dateColsOf.mpr ⟨hcc, by rw [hparse]; rfl⟩
  have hsplit : (dc ++ oc).filterMap (fun c => (parseDate c).map (fun dt => (c, dt))) = P := by
    rw [List.filterMap_append]
    have h2 : oc.filterMap (fun c => (parseDate c).map (fun dt => (c, dt))) = [] := by
      rw [List.filterMap_eq_nil_iff]
      intro c hc
      rw [hocnone c hc]
      rfl
    rw [h2, List.append_nil, hdc]
    exact filterMap_dates_of_pairs P hprop
  have hsorted : P.Pairwise (fun p q : String × Date => dateLeB p.2 q.2 = true) := by
    rw [hP]
    exact insertionSort_pairwise _ (fun (a b : String × Date) => dateLeB_total a.2 b.2)
      (fun (a b c : String × Date) => dateLeB_trans a.2 b.2 c.2) _
  rw [hsplit, insertionSort_eq_self _ _ hsorted]
  have hfilter : (dc ++ oc).filter (fun c => decide (¬ c ∈ dc)) = oc := by
    rw [List.filter_append]
    have h1 : dc.filter (fun c => decide (¬ c ∈ dc)) = [] := by
      rw [List.filter_eq_nil_iff]
      intro c hc
      simp [hc]
    have h2 : oc.filter (fun c => decide (¬ c ∈ dc)) = oc := by
      rw [List.filter_eq_self]
      intro c hc
      rcases List.mem_filter.mp hc with ⟨_, hnotin⟩
      exact hnotin
    rw [h1, h2, List.nil_append]
  rw [hfilter]

theorem sortCols_split (cols : List String) (hnd : cols.Nodup) :
    ∃ dc oc, sortCols cols = dc ++ oc ∧
      (∀ c ∈ dc, (parseDate c).isSome) ∧
      (∀ c ∈ oc, parseDate c = none) ∧
      (dc.filterMap parseDate).Pairwise dateLt := by
  unfold sortCols
  simp only
  set P := insertionSort (fun p q : String × Date => dateLeB p.2 q.2)
    (cols.filterMap (fun c => (parseDate c).map (fun dt => (c, dt)))) with hP
  have hprop : ∀ p ∈ P, parseDate p.1 = some p.2 := by
    rw [hP]; exact sortedDatePairs_prop cols
  refine ⟨P.map Prod.fst, cols.filter (fun c => decide (¬ c ∈ P.map Prod.fst)), rfl,
    ?_, ?_, ?_⟩
  · intro c hc
    rcases List.mem_map.mp hc with ⟨p, hp, hfst⟩
    subst hfst
    rw [hprop p hp]
    rfl
  · intro c hc
    rcases List.mem_filter.mp hc with ⟨hcc, hnotin⟩
    rw [decide_eq_true_iff] at hnotin
    rcases hparse : parseDate c with _ | dt
    · rfl
    · exfalso
      apply hnotin
      rw [hP]
      exact mem_dateColsOf.mpr ⟨hcc, by rw [hparse]; rfl⟩
  · rw [filterMap_snd_of_pairs P hprop]
    have hsorted : P.Pairwise (fun p q : String × Date => dateLeB p.2 q.2 = true) := by
      rw [hP]
      exact insertionSort_pairwise _ (fun (a b : String × Date) => dateLeB_total a.2 b.2)
        (fun (a b c : String × Date) => dateLeB_trans a.2 b.2 c.2) _
    have hpairsnd : (cols.filterMap (fun c => (parseDate c).map (fun dt => (c, dt)))).Nodup := by
      refine List.Nodup.filterMap ?_ hnd
      intro a b p hfa hfb
      rcases hpa : parseDate a with _ | dta
      · rw [hpa] at hfa; simp at hfa
      · rcases hpb : parseDate b with _ | dtb
        · rw [hpb] at hfb; simp at hfb
        · rw [hpa] at hfa
          rw [hpb] at hfb
          have h1 : (a, dta) = p := by simpa using hfa
          have h2 : (b, dtb) = p := by simpa using hfb
          have : (a, dta) = (b, dtb) := h1.trans h2.symm
          exact (congrArg Prod.fst this)
    have hPnodup : P.Nodup := by
      rw [hP]
      exact insertionSort_nodup _ _ hpairsnd
    have hne : P.Pairwise (fun p q => p ≠ q) := hPnodup
    have hcomb := hsorted.and hne
    have hcomb' : P.Pairwise (fun p q : String × Date => dateLt p.2 q.2) := by
      refine List.Pairwise.imp_of_mem ?_ hcomb
      intro p q hp hq hpq
      rcases hpq with ⟨hle, hne'⟩
      refine dateLt_of_le_of_ne (by rwa [dateLeB, decide_eq_true_iff] at hle) ?_
      intro hsndeq
      apply hne'
      have h1 := hprop p hp
      have h2 := hprop q hq
      rw [hsndeq] at h1
      have hfst : p.1 = q.1 := parseDate_injective h1 h2
      exact Prod.ext hfst hsndeq
    exact List.pairwise_map.mpr hcomb'

/-! ## Render emptiness lemmas -/
theorem renderInt_eq_empty_iff (o : Option ℤ) : renderInt o = "" ↔ o = none := by
  cases o with
  | none => simp [renderInt]
  | some k => simp [renderInt, intStr_ne_empty k]

theorem renderF2_eq_empty_iff (o : Option ℚ) : renderF2 o = "" ↔ o = none := by
  cases o with
  | none => simp [renderF2]
  | some q => simp [renderF2, fmtFixed_ne_empty 2 q]

theorem renderStripped_eq_empty_iff (o : Option ℚ) : renderStripped o = "" ↔ o = none := by
  cases o with
  | none => simp [renderStripped]
  | some q => simp [renderStripped, fmtClose_ne_empty q]

theorem append_bar_ne_empty (a b : String) : a ++ "|" ++ b ≠ "" := by
  intro h
  have hd := congrArg String.data h
  simp only [String.data_append] at hd
  have : '|' ∈ (List.nil : List Char) := by
    rw [← hd]
    simp [String.data]
  simp at this

/-! ## Claims -/
/-- C7: fmt_cell returns the empty string exactly when every field is
absent (None or NaN for the numeric fields, absent count or empty leader in
the 7-field variant); otherwise it returns the positional pipe-joined
rendering of the fields, so an empty cell encodes no data and never arises
when any field is present.  Stated for the 3-field fmt_cell of
bk_fetch_data.py and the 7-field fmt_cell of bk_data_ind.py. -/
theorem claim_C7 (rank : Option ℤ) (pct close turnover : Option ℚ)
    (up down : Option ℤ) (leader : String) :
    (BkFetchData.fmt_cell rank pct close = "" ↔
      rank = none ∧ pct = none ∧ close = none) ∧
    (BkDataInd.fmt_cell rank pct close turnover up down leader = "" ↔
      rank = none ∧ pct = none ∧ close = none ∧ turnover = none ∧
        up = none ∧ down = none ∧ leader = "") ∧
    (¬ (rank = none ∧ pct = none ∧ close = none) →
      BkFetchData.fmt_cell rank pct close =
        renderInt rank ++ "|" ++ renderF2 pct ++ "|" ++ renderStripped close) ∧
    (¬ (rank = none ∧ pct = none ∧ close = none ∧ turnover = none ∧
        up = none ∧ down = none ∧ leader = "") →
      BkDataInd.fmt_cell rank pct close turnover up down leader =
        renderInt rank ++ "|" ++ renderF2 pct ++ "|" ++ renderStripped close ++ "|" ++
          renderF2 turnover ++ "|" ++ renderInt up ++ "|" ++ renderInt down ++ "|" ++ leader) := by
  have h3 : (renderInt rank = "" ∧ renderF2 pct = "" ∧ renderStripped close = "") ↔
      (rank = none ∧ pct = none ∧ close = none) := by
    rw [renderInt_eq_empty_iff, renderF2_eq_empty_iff, renderStripped_eq_empty_iff]
  have h7 : (renderInt rank = "" ∧ renderF2 pct = "" ∧ renderStripped close = "" ∧
      renderF2 turnover = "" ∧ renderInt up = "" ∧ renderInt down = "" ∧ leader = "") ↔
      (rank = none ∧ pct = none ∧ close = none ∧ turnover = none ∧
        up = none ∧ down = none ∧ leader = "") := by
    rw [renderInt_eq_empty_iff, renderF2_eq_empty_iff, renderStripped_eq_empty_iff,
      renderF2_eq_empty_iff, renderInt_eq_empty_iff, renderInt_eq_empty_iff]
  refine ⟨?_, ?_, ?_, ?_⟩
  · unfold BkFetchData.fmt_cell
    constructor
    · intro h
      by_cases hc : renderInt rank = "" ∧ renderF2 pct = "" ∧ renderStripped close = ""
      · exact h3.mp hc
      · rw [if_neg hc] at h
        exact absurd h (append_bar_ne_empty _ _)
    · intro h
      rw [if_pos (h3.mpr h)]
  · unfold BkDataInd.fmt_cell
    constructor
    · intro h
      by_cases hc : renderInt rank = "" ∧ renderF2 pct = "" ∧ renderStripped close = "" ∧
          renderF2 turnover = "" ∧ renderInt up = "" ∧ renderInt down = "" ∧ leader = ""
      · exact h7.mp hc
      · rw [if_neg hc] at h
        exact absurd h (append_bar_ne_empty _ _)
    · intro h
      rw [if_pos (h7.mpr h)]
  · intro h
    unfold BkFetchData.fmt_cell
    rw [if_neg (fun hc => h (h3.mp hc))]
  · intro h
    unfold BkDataInd.fmt_cell
    rw [if_neg (fun hc => h (h7.mp hc))]

/-- Witness for C7 at concrete inputs: a cell with only a pct field is the
non-empty string with empty rank and value slots, and the all-absent cell
is empty, in both variants. -/
theorem claim_C7_witness :
    BkFetchData.fmt_cell none (some (5 / 2)) none = "|2.50|" ∧
    BkFetchData.fmt_cell none none none = "" ∧
    BkDataInd.fmt_cell none none none none none none "AAPL" = "||||||AAPL" ∧
    BkDataInd.fmt_cell none none none none none none "" = "" := by
  refine ⟨?_, ?_, ?_, ?_⟩
  · have h := (claim_C7 none (some (5 / 2)) none none none none "").2.2.1 (by simp)
    rw [h]
    with_unfolding_all rfl
  · exact (claim_C7 none none none none none none "").1.mpr (by simp)
  · have h := (claim_C7 none none none none none none "AAPL").2.2.2 (by simp)
    rw [h]
    with_unfolding_all rfl
  · exact (claim_C7 none none none none none none "").2.1.mpr (by simp)

/-- C6: build_csv bootstraps the full historical baseline exactly when the
output CSV does not exist or reads back as an empty table; otherwise it
takes a patch branch that touches only the current trading-day column (the
clist branch in list mode, the per-board kline branch otherwise). -/
theorem claim_C6 (csv_exists : Bool) (readTable : Wide) (today_mode : String) :
    (build_csv_branch csv_exists readTable today_mode = Branch.baseline ↔
      (csv_exists = false ∨ readTable.isEmpty)) ∧
    (build_csv_branch csv_exists readTable today_mode ≠ Branch.baseline →
      build_csv_branch csv_exists readTable today_mode =
        (if today_mode = "list" then Branch.patchList else Branch.patchHis)) := by
  unfold build_csv_branch
  cases csv_exists with
  | false =>
    rw [if_neg (by decide : ¬ ((false : Bool) = true))]
    have hempty : emptyWide.isEmpty := Or.inl rfl
    rw [if_pos hempty]
    exact ⟨⟨fun _ => Or.inl rfl, fun _ => rfl⟩, fun h => absurd rfl h⟩
  | true =>
    rw [if_pos (rfl : (true : Bool) = true)]
    by_cases h : readTable.isEmpty
    · rw [if_pos h]
      exact ⟨⟨fun _ => Or.inr h, fun _ => rfl⟩, fun hc => absurd rfl hc⟩
    · rw [if_neg h]
      constructor
      · constructor
        · intro hc
          by_cases hm : today_mode = "list"
          · rw [if_pos hm] at hc
            exact absurd hc (by decide)
          · rw [if_neg hm] at hc
            exact absurd hc (by decide)
        · intro hc
          rcases hc with hc | hc
          · exact absurd hc (by decide)
          · exact absurd hc h
      · intro _
        rfl

/-- Witness for C6: with an existing, non-empty table the branch is the
today patch, and with a missing file the branch is the baseline. -/
theorem claim_C6_witness :
    build_csv_branch true ⟨["BK1|steel"], ["2024-01-02"], fun _ _ => none⟩ "list" =
      Branch.patchList ∧
    build_csv_branch false ⟨["BK1|steel"], ["2024-01-02"], fun _ _ => none⟩ "list" =
      Branch.baseline := by
  constructor
  · have h := (claim_C6 true ⟨["BK1|steel"], ["2024-01-02"], fun _ _ => none⟩ "list").2
      (by intro hc
          have := (claim_C6 true ⟨["BK1|steel"], ["2024-01-02"], fun _ _ => none⟩ "list").1.mp hc
          rcases this with h | h
          · exact absurd h (by decide)
          · rcases h with h | h <;> simp at h)
    simpa using h
  · exact (claim_C6 false ⟨["BK1|steel"], ["2024-01-02"], fun _ _ => none⟩ "list").1.mpr
      (Or.inl rfl)

/-- C9: parse_triplet is total on cell values and never raises: a NaN
cell, a cell with fewer than three pipe-separated fields, or a cell with a
non-numeric field among the first three yields the all-NaN triple, and a
cell whose first three fields parse as floats yields the rank converted to
an int when positive and integral (within the one-billionth tolerance of
the source), the pct divided by 100, and the value. -/
theorem claim_C9 (cell : Option String) :
    (BkTopRange.tripletFields cell = none →
      BkTopRange.parse_triplet cell = (none, none, none)) ∧
    (∀ a b v : ℚ, BkTopRange.tripletFields cell = some (a, b, v) →
      BkTopRange.parse_triplet cell =
        (BkTopRange.rankConv a, some (b / 100), some v)) := by
  cases cell with
  | none =>
    refine ⟨fun _ => rfl, fun a b v h => ?_⟩
    simp [BkTopRange.tripletFields] at h
  | some s =>
    rcases hs : s.splitOn "|" with _ | ⟨p0, rest0⟩
    · simp only [BkTopRange.tripletFields, BkTopRange.parse_triplet, hs]
      exact ⟨fun _ => trivial, fun a b v h => by simp at h⟩
    · rcases rest0 with _ | ⟨p1, rest1⟩
      · simp only [BkTopRange.tripletFields, BkTopRange.parse_triplet, hs]
        exact ⟨fun _ => trivial, fun a b v h => by simp at h⟩
      · rcases rest1 with _ | ⟨p2, rest2⟩
        · simp only [BkTopRange.tripletFields, BkTopRange.parse_triplet, hs]
          exact ⟨fun _ => trivial, fun a b v h => by simp at h⟩
        · simp only [BkTopRange.tripletFields, BkTopRange.parse_triplet, hs]
          rcases h0 : BkTopRange.pyFloat p0 with _ | q0 <;>
            rcases h1 : BkTopRange.pyFloat p1 with _ | q1 <;>
              rcases h2 : BkTopRange.pyFloat p2 with _ | q2 <;>
                simp only [h0, h1, h2]
          all_goals simp

/-- Witness for C9: a non-numeric cell parses to the all-NaN triple, and a
well-formed cell parses to rank 2, pct 0.035 and value 1.2. -/
theorem claim_C9_witness :
    BkTopRange.parse_triplet (some "oops") = (none, none, none) ∧
    BkTopRange.parse_triplet (some "2|3.50|1.2") =
      (some (2 : ℤ), some ((7 : ℚ) / 200), some ((6 : ℚ) / 5)) := by
  constructor
  · exact (claim_C9 (some "oops")).1 (by with_unfolding_all rfl)
  · have h := (claim_C9 (some "2|3.50|1.2")).2 2 (7 / 2) (6 / 5) (by with_unfolding_all rfl)
    rw [h]
    with_unfolding_all rfl

/-! ## Helper lemmas about patch_today -/
theorem lookupKey_eq_none_iff (pairs : List (String × String)) (r : String) :
    lookupKey pairs r = none ↔ r ∉ pairs.map Prod.fst := by
  induction pairs with
  | nil => simp [lookupKey]
  | cons p rest ih =>
    rcases p with ⟨k, v⟩
    by_cases h : r = k
    · subst h
      simp [lookupKey]
    · simp [lookupKey, h, ih, Ne.symm h]

theorem mem_new_keys {W : Wide} {D : List TodayRec} {k : String} :
    k ∈ BkDataInd.new_keys W D ↔
      (k ∈ (BkDataInd.snapCells D).map Prod.fst ∧ k ∉ W.rows) := by
  unfold BkDataInd.new_keys
  rw [mem_insertionSort, List.mem_dedup, List.mem_filter]
  simp

theorem new_keys_nodup (W : Wide) (D : List TodayRec) : (BkDataInd.new_keys W D).Nodup := by
  unfold BkDataInd.new_keys
  exact insertionSort_nodup _ _ (List.nodup_dedup _)

theorem patch_today_rows (W : Wide) (D : List TodayRec) (tc : String) :
    (BkDataInd.patch_today W D tc).rows = W.rows ++ BkDataInd.new_keys W D := rfl

theorem patch_today_cols (W : Wide) (D : List TodayRec) (tc : String) :
    (BkDataInd.patch_today W D tc).cols = sortCols (BkDataInd.patch_cols W tc) := rfl

theorem patch_today_val (W : Wide) (D : List TodayRec) (tc : String) :
    (BkDataInd.patch_today W D tc).val = BkDataInd.patch_val3 W D tc := rfl

theorem mem_patch_cols {W : Wide} {tc c : String} :
    c ∈ BkDataInd.patch_cols W tc ↔ (c ∈ W.cols ∨ c = tc) := by
  unfold BkDataInd.patch_cols
  by_cases h : tc ∈ W.cols
  · rw [if_pos h]
    constructor
    · exact fun hc => Or.inl hc
    · intro hc
      rcases hc with hc | hc
      · exact hc
      · rw [hc]; exact h
  · rw [if_neg h]
    simp

theorem patch_val2_of_ne {W : Wide} {D : List TodayRec} {tc r c : String} (hne : c ≠ tc) :
    BkDataInd.patch_val2 W D tc r c = BkDataInd.patch_val1 W D r c := by
  unfold BkDataInd.patch_val2
  by_cases h : tc ∈ W.cols
  · rw [if_pos h]
  · rw [if_neg h, if_neg hne]

theorem patch_val1_of_old {W : Wide} {D : List TodayRec} {r : String} (hr : r ∈ W.rows)
    (c : String) : BkDataInd.patch_val1 W D r c = W.val r c := by
  unfold BkDataInd.patch_val1
  rw [if_neg (fun hmem => (mem_new_keys.mp hmem).2 hr)]

theorem patch_val3_of_ne {W : Wide} {D : List TodayRec} {tc r c : String} (hne : c ≠ tc) :
    BkDataInd.patch_val3 W D tc r c = BkDataInd.patch_val2 W D tc r c := by
  unfold BkDataInd.patch_val3
  rw [if_neg hne]

theorem vis_patch_spec (W : Wide) (D : List TodayRec) (tc : String) (W' : Wide)
    (h : BkFetchData.patch_today W D tc = some W') :
    W'.rows = W.rows ∧
    (tc ∈ W.cols →
      W'.cols = sortCols W.cols ∧
      (∀ r ∈ W.rows, r ∈ (BkFetchData.snapCells D).map Prod.fst) ∧
      ∀ r c, W'.val r c =
        (if c = tc then
          match lookupKey (BkFetchData.snapCells D) r with
          | some s => if s = "" then W.val r c else some s
          | none => W.val r c
        else W.val r c)) ∧
    (tc ∉ W.cols →
      W'.cols = sortCols (W.cols ++ [tc]) ∧
      ∀ r c, W'.val r c =
        (if c = tc then lookupKey (BkFetchData.snapCells D) r else W.val r c)) := by
  unfold BkFetchData.patch_today at h
  by_cases hc : tc ∈ W.cols
  · rw [if_pos hc] at h
    by_cases hall : W.rows.all (fun r => decide (r ∈ (BkFetchData.snapCells D).map Prod.fst))
    · rw [if_pos hall] at h
      have hW' := (Option.some_inj.mp h).symm
      subst hW'
      refine ⟨rfl, fun _ => ⟨rfl, ?_, fun r c => rfl⟩, fun hnc => absurd hc hnc⟩
      intro r hr
      have := List.all_eq_true.mp hall r hr
      exact decide_eq_true_iff.mp this
    · rw [if_neg hall] at h
      simp at h
  · rw [if_neg hc] at h
    have hW' := (Option.some_inj.mp h).symm
    subst hW'
    exact ⟨rfl, fun hcc => absurd hcc hc, fun _ => ⟨rfl, fun r c => rfl⟩⟩

theorem vis_patch_isSome (W : Wide) (D : List TodayRec) (tc : String)
    (hok : tc ∉ W.cols ∨ ∀ r ∈ W.rows, r ∈ (BkFetchData.snapCells D).map Prod.fst) :
    ∃ W', BkFetchData.patch_today W D tc = some W' := by
  unfold BkFetchData.patch_today
  by_cases hc : tc ∈ W.cols
  · rw [if_pos hc]
    have hall : W.rows.all (fun r => decide (r ∈ (BkFetchData.snapCells D).map Prod.fst)) := by
      rw [List.all_eq_true]
      intro r hr
      rcases hok with hok | hok
      · exact absurd hc hok
      · exact decide_eq_true_iff.mpr (hok r hr)
    rw [if_pos hall]
    exact ⟨_, rfl⟩
  · rw [if_neg hc]
    exact ⟨_, rfl⟩

/-- C1: with an existing today column, a patch run leaves the today cell of
an existing board unchanged whenever the aligned new cell for that board is
missing (the board is absent from the snapshot; pandas NaN after reindex)
or the empty string; only a board whose new cell is a non-empty string has
its today value overwritten, and it is overwritten with exactly that
string.  Stated for the patch_today of bk_data_ind.py and, on success, for
the patch_today of bk_fetch_data.py. -/
theorem claim_C1 (W : Wide) (D : List TodayRec) (tc : String) (r : String)
    (hr : r ∈ W.rows) (hc : tc ∈ W.cols) :
    ((lookupKey (BkDataInd.snapCells D) r = none ∨
        lookupKey (BkDataInd.snapCells D) r = some "") →
      (BkDataInd.patch_today W D tc).val r tc = W.val r tc) ∧
    (∀ s, lookupKey (BkDataInd.snapCells D) r = some s → s ≠ "" →
      (BkDataInd.patch_today W D tc).val r tc = some s) ∧
    (∀ W', BkFetchData.patch_today W D tc = some W' →
      ((lookupKey (BkFetchData.snapCells D) r = none ∨
          lookupKey (BkFetchData.snapCells D) r = some "") →
        W'.val r tc = W.val r tc) ∧
      (∀ s, lookupKey (BkFetchData.snapCells D) r = some s → s ≠ "" →
        W'.val r tc = some s)) := by
  have hval2 : BkDataInd.patch_val2 W D tc r tc = W.val r tc := by
    unfold BkDataInd.patch_val2
    rw [if_pos hc]
    exact patch_val1_of_old hr tc
  refine ⟨?_, ?_, ?_⟩
  · intro hmiss
    rw [patch_today_val]
    unfold BkDataInd.patch_val3
    rw [if_pos rfl]
    rcases hmiss with hmiss | hmiss <;> rw [hmiss] <;> simp [hval2]
  · intro s hs hsne
    rw [patch_today_val]
    unfold BkDataInd.patch_val3
    rw [if_pos rfl, hs]
    simp [hsne]
  · intro W' hW'
    have hspec := (vis_patch_spec W D tc W' hW').2.1 hc
    rcases hspec with ⟨_, _, hvals⟩
    constructor
    · intro hmiss
      rw [hvals r tc, if_pos rfl]
      rcases hmiss with hmiss | hmiss <;> simp [hmiss]
    · intro s hs hsne
      rw [hvals r tc, if_pos rfl, hs]
      simp [hsne]

/-- Witness for C1: a table with board A and an existing today column; the
snapshot contains A with all fields missing, so its new cell is empty and
the recorded today value v survives the patch in both variants. -/
theorem claim_C1_witness :
    (BkDataInd.patch_today
        ⟨["A|a"], ["2024-01-02"], fun _ _ => some "v"⟩
        [{ bk_code := "A", bk_name := "a", close := none, pct_chg := none }]
        "2024-01-02").val "A|a" "2024-01-02" = some "v" := by
  have h := (claim_C1 ⟨["A|a"], ["2024-01-02"], fun _ _ => some "v"⟩
    [{ bk_code := "A", bk_name := "a", close := none, pct_chg := none }]
    "2024-01-02" "A|a" (by decide) (by decide)).1 (Or.inr (by decide))
  rw [h]

/-- C2: a patch run changes no cell outside the today column for any board
already present before the call: every other column keeps its exact value
for every pre-existing row (the column may move, but it survives with its
values).  Stated for the patch_today of bk_data_ind.py and, on success, for
the patch_today of bk_fetch_data.py. -/
theorem claim_C2 (W : Wide) (D : List TodayRec) (tc : String) (r c : String)
    (hr : r ∈ W.rows) (hcol : c ∈ W.cols) (hne : c ≠ tc) :
    ((BkDataInd.patch_today W D tc).val r c = W.val r c ∧
      c ∈ (BkDataInd.patch_today W D tc).cols) ∧
    (∀ W', BkFetchData.patch_today W D tc = some W' →
      W'.val r c = W.val r c ∧ c ∈ W'.cols) := by
  constructor
  · constructor
    · rw [patch_today_val, patch_val3_of_ne hne, patch_val2_of_ne hne]
      exact patch_val1_of_old hr c
    · rw [patch_today_cols]
      exact mem_sortCols.mpr (mem_patch_cols.mpr (Or.inl hcol))
  · intro W' hW'
    obtain ⟨_, hin, hout⟩ := vis_patch_spec W D tc W' hW'
    by_cases hc : tc ∈ W.cols
    · obtain ⟨hcols, _, hvals⟩ := hin hc
      refine ⟨?_, ?_⟩
      · rw [hvals r c, if_neg hne]
      · rw [hcols]
        exact mem_sortCols.mpr hcol
    · obtain ⟨hcols, hvals⟩ := hout hc
      refine ⟨?_, ?_⟩
      · rw [hvals r c, if_neg hne]
      · rw [hcols]
        exact mem_sortCols.mpr (List.mem_append_left _ hcol)

/-- Witness for C2: patching the today column 2024-01-03 leaves the
recorded cell of the past column 2024-01-02 of board A untouched in both
variants. -/
theorem claim_C2_witness :
    ((BkDataInd.patch_today
        ⟨["A|a"], ["2024-01-02"], fun _ _ => some "1|2.00|3"⟩
        [{ bk_code := "A", bk_name := "a", close := none, pct_chg := none }]
        "2024-01-03").val "A|a" "2024-01-02" = some "1|2.00|3" ∧
      "2024-01-02" ∈ (BkDataInd.patch_today
        ⟨["A|a"], ["2024-01-02"], fun _ _ => some "1|2.00|3"⟩
        [{ bk_code := "A", bk_name := "a", close := none, pct_chg := none }]
        "2024-01-03").cols) := by
  have h := (claim_C2 ⟨["A|a"], ["2024-01-02"], fun _ _ => some "1|2.00|3"⟩
    [{ bk_code := "A", bk_name := "a", close := none, pct_chg := none }]
    "2024-01-03" "A|a" "2024-01-02" (by decide) (by decide) (by decide)).1
  exact h

theorem new_keys_eq_nil {W : Wide} {D : List TodayRec}
    (h : ∀ k ∈ (BkDataInd.snapCells D).map Prod.fst, k ∈ W.rows) :
    BkDataInd.new_keys W D = [] := by
  unfold BkDataInd.new_keys
  have hfilter : ((BkDataInd.snapCells D).map Prod.fst).filter
      (fun k => decide (¬ k ∈ W.rows)) = [] := by
    rw [List.filter_eq_nil_iff]
    intro k hk
    simp [h k hk]
  rw [hfilter]
  rfl

/-- C4 counterexample: the patch_today of bk_fetch_data.py does not append
rows for newly discovered boards.  Board B is in the snapshot and not in
the table, the patch succeeds, and the written table still has only board
A as a row. -/
theorem claim_C4_counterexample :
    (BkFetchData.patch_today
        ⟨["A|a"], ["2024-01-02"], fun _ _ => none⟩
        [{ bk_code := "A", bk_name := "a", close := none, pct_chg := none },
         { bk_code := "B", bk_name := "b", close := none, pct_chg := none }]
        "2024-01-03").map Wide.rows = some ["A|a"] ∧
    "B|b" ∈ (BkFetchData.snapCells
        [{ bk_code := "A", bk_name := "a", close := none, pct_chg := none },
         { bk_code := "B", bk_name := "b", close := none, pct_chg := none }]).map Prod.fst ∧
    "B|b" ∉ (["A|a"] : List String) := by
  refine ⟨?_, by decide, by decide⟩
  with_unfolding_all rfl

/-- C4 amended: the patch_today of bk_data_ind.py appends exactly one new
row per snapshot board whose row_key is not already a row (in sorted key
order at the bottom), every pre-existing column other than the today column
is NaN in such a row, and a board the API omits keeps its whole row
unchanged; the patch_today of bk_fetch_data.py appends nothing (its row
index is unchanged, so snapshot-only boards are dropped). -/
theorem claim_C4_amended (W : Wide) (D : List TodayRec) (tc : String) :
    ((BkDataInd.patch_today W D tc).rows = W.rows ++ BkDataInd.new_keys W D ∧
      (BkDataInd.new_keys W D).Nodup ∧
      (∀ k, k ∈ BkDataInd.new_keys W D ↔
        (k ∈ (BkDataInd.snapCells D).map Prod.fst ∧ k ∉ W.rows)) ∧
      (∀ k ∈ BkDataInd.new_keys W D, ∀ c ∈ W.cols, c ≠ tc →
        (BkDataInd.patch_today W D tc).val k c = none) ∧
      (∀ r ∈ W.rows, r ∉ (BkDataInd.snapCells D).map Prod.fst →
        ∀ c ∈ W.cols, (BkDataInd.patch_today W D tc).val r c = W.val r c)) ∧
    (∀ W', BkFetchData.patch_today W D tc = some W' → W'.rows = W.rows) := by
  refine ⟨⟨patch_today_rows W D tc, new_keys_nodup W D, fun k => mem_new_keys, ?_, ?_⟩, ?_⟩
  · intro k hk c _ hne
    rw [patch_today_val, patch_val3_of_ne hne, patch_val2_of_ne hne]
    unfold BkDataInd.patch_val1
    rw [if_pos hk]
  · intro r hr hmiss c hc
    have hlook : lookupKey (BkDataInd.snapCells D) r = none :=
      (lookupKey_eq_none_iff _ _).mpr hmiss
    rw [patch_today_val]
    by_cases hne : c = tc
    · subst hne
      unfold BkDataInd.patch_val3
      rw [if_pos rfl, hlook]
      unfold BkDataInd.patch_val2
      rw [if_pos hc]
      exact patch_val1_of_old hr c
    · rw [patch_val3_of_ne hne, patch_val2_of_ne hne]
      exact patch_val1_of_old hr c
  · intro W' hW'
    exact (vis_patch_spec W D tc W' hW').1

/-- Witness for C4: board B is appended at the bottom with a NaN cell in
the pre-existing column, and omitted board A keeps its recorded cell. -/
theorem claim_C4_witness :
    (BkDataInd.patch_today
        ⟨["A|a"], ["2024-01-02"], fun _ _ => some "x"⟩
        [{ bk_code := "B", bk_name := "b", close := none, pct_chg := none }]
        "2024-01-03").rows = ["A|a", "B|b"] ∧
    (BkDataInd.patch_today
        ⟨["A|a"], ["2024-01-02"], fun _ _ => some "x"⟩
        [{ bk_code := "B", bk_name := "b", close := none, pct_chg := none }]
        "2024-01-03").val "B|b" "2024-01-02" = none ∧
    (BkDataInd.patch_today
        ⟨["A|a"], ["2024-01-02"], fun _ _ => some "x"⟩
        [{ bk_code := "B", bk_name := "b", close := none, pct_chg := none }]
        "2024-01-03").val "A|a" "2024-01-02" = some "x" := by
  refine ⟨?_, ?_, ?_⟩
  · rw [(claim_C4_amended ⟨["A|a"], ["2024-01-02"], fun _ _ => some "x"⟩
      [{ bk_code := "B", bk_name := "b", close := none, pct_chg := none }]
      "2024-01-03").1.1]
    decide
  · exact (claim_C4_amended ⟨["A|a"], ["2024-01-02"], fun _ _ => some "x"⟩
      [{ bk_code := "B", bk_name := "b", close := none, pct_chg := none }]
      "2024-01-03").1.2.2.2.1 "B|b" (by decide) "2024-01-02" (by decide) (by decide)
  · exact (claim_C4_amended ⟨["A|a"], ["2024-01-02"], fun _ _ => some "x"⟩
      [{ bk_code := "B", bk_name := "b", close := none, pct_chg := none }]
      "2024-01-03").1.2.2.2.2 "A|a" (by decide) (by decide) "2024-01-02" (by decide)

/-- C3 counterexample: in his mode, build_csv reindexes the table to the
freshly fetched board list before patching, so board BK1 (present before
the run, absent from the fetched list) is dropped from the written table;
the set of known boards shrinks. -/
theorem claim_C3_counterexample :
    "BK1|a" ∈ (⟨["BK1|a"], ["2024-01-02"], fun _ _ => some "x"⟩ : Wide).rows ∧
    "BK1|a" ∉ (BkDataInd.build_csv_his_writeback
        ⟨["BK1|a"], ["2024-01-02"], fun _ _ => some "x"⟩
        [("BK2", "b")]
        [{ bk_code := "BK2", bk_name := "b", close := none, pct_chg := none }]
        "2024-01-03").table.rows := by
  constructor
  · decide
  · intro hmem
    have hrows : (BkDataInd.build_csv_his_writeback
        ⟨["BK1|a"], ["2024-01-02"], fun _ _ => some "x"⟩
        [("BK2", "b")]
        [{ bk_code := "BK2", bk_name := "b", close := none, pct_chg := none }]
        "2024-01-03").table.rows = ["BK2|b"] := by
      with_unfolding_all rfl
    rw [hrows] at hmem
    simp at hmem

/-- C3 amended: in list mode the set of known boards only grows (the
bk_data_ind.py patch_today keeps every pre-existing row and only appends;
the bk_fetch_data.py patch_today keeps the row index unchanged), but in his
mode the table is first reindexed to the freshly fetched board list, so the
written row set equals that list whenever the snapshot keys come from it:
boards no longer in the fetched list are dropped. -/
theorem claim_C3_amended (W : Wide) (D : List TodayRec) (tc : String)
    (boards : List (String × String)) :
    (∀ r ∈ W.rows, r ∈ (BkDataInd.patch_today W D tc).rows) ∧
    (∀ W', BkFetchData.patch_today W D tc = some W' → W'.rows = W.rows) ∧
    ((∀ k ∈ (BkDataInd.snapCells D).map Prod.fst,
        k ∈ boards.map (fun b => b.1 ++ "|" ++ b.2)) →
      (BkDataInd.build_csv_his_writeback W boards D tc).table.rows =
        boards.map (fun b => b.1 ++ "|" ++ b.2)) := by
  refine ⟨?_, ?_, ?_⟩
  · intro r hr
    rw [patch_today_rows]
    exact List.mem_append_left _ hr
  · intro W' hW'
    exact (vis_patch_spec W D tc W' hW').1
  · intro hcover
    unfold BkDataInd.build_csv_his_writeback BkDataInd.patch_today_out
    simp only
    rw [patch_today_rows]
    have hnil : BkDataInd.new_keys
        (reindexW W (boards.map (fun b => b.1 ++ "|" ++ b.2))) D = [] :=
      new_keys_eq_nil (fun k hk => hcover k hk)
    rw [hnil, List.append_nil]
    rfl

/-- Witness for C3 amended: in list mode board A survives the ind patch;
the vis patch keeps the row list; in his mode the written rows equal the
fetched board list. -/
theorem claim_C3_witness :
    "A|a" ∈ (BkDataInd.patch_today
      ⟨["A|a"], ["2024-01-02"], fun _ _ => some "x"⟩
      [{ bk_code := "A", bk_name := "a", close := none, pct_chg := none }]
      "2024-01-03").rows ∧
    (BkDataInd.build_csv_his_writeback
        ⟨["A|a"], ["2024-01-02"], fun _ _ => some "x"⟩
        [("BK2", "b")]
        [{ bk_code := "BK2", bk_name := "b", close := none, pct_chg := none }]
        "2024-01-03").table.rows = ["BK2|b"] := by
  constructor
  · exact (claim_C3_amended ⟨["A|a"], ["2024-01-02"], fun _ _ => some "x"⟩
      [{ bk_code := "A", bk_name := "a", close := none, pct_chg := none }]
      "2024-01-03" []).1 "A|a" (by decide)
  · have h := (claim_C3_amended ⟨["A|a"], ["2024-01-02"], fun _ _ => some "x"⟩
      [{ bk_code := "BK2", bk_name := "b", close := none, pct_chg := none }]
      "2024-01-03" [("BK2", "b")]).2.2 (by decide)
    rw [h]
    decide

theorem patch_val3_at_tc (W : Wide) (D : List TodayRec) (tc r : String) :
    BkDataInd.patch_val3 W D tc r tc =
      (match lookupKey (BkDataInd.snapCells D) r with
      | some s => if s = "" then BkDataInd.patch_val2 W D tc r tc else some s
      | none => BkDataInd.patch_val2 W D tc r tc) := by
  unfold BkDataInd.patch_val3
  rw [if_pos rfl]

theorem patch_val3_lookup_none {W : Wide} {D : List TodayRec} {tc r : String}
    (hlook : lookupKey (BkDataInd.snapCells D) r = none) :
    BkDataInd.patch_val3 W D tc r tc = BkDataInd.patch_val2 W D tc r tc := by
  rw [patch_val3_at_tc, hlook]

theorem patch_val3_lookup_some {W : Wide} {D : List TodayRec} {tc r s : String}
    (hlook : lookupKey (BkDataInd.snapCells D) r = some s) :
    BkDataInd.patch_val3 W D tc r tc =
      (if s = "" then BkDataInd.patch_val2 W D tc r tc else some s) := by
  rw [patch_val3_at_tc, hlook]

/-- C8: patch_today is idempotent.  Applying the bk_data_ind.py patch_today
a second time with the same snapshot and today column returns exactly the
table of the first application; for the bk_fetch_data.py patch_today, a
successful second application writes exactly the table of the first (a
failed second application raises before writing anything). -/
theorem claim_C8 (W : Wide) (D : List TodayRec) (tc : String) :
    BkDataInd.patch_today (BkDataInd.patch_today W D tc) D tc =
      BkDataInd.patch_today W D tc ∧
    (∀ W1 W2, BkFetchData.patch_today W D tc = some W1 →
      BkFetchData.patch_today W1 D tc = some W2 → W2 = W1) := by
  constructor
  · set W' := BkDataInd.patch_today W D tc with hW'
    have hsub : ∀ k ∈ (BkDataInd.snapCells D).map Prod.fst, k ∈ W'.rows := by
      intro k hk
      rw [hW', patch_today_rows]
      by_cases h : k ∈ W.rows
      · exact List.mem_append_left _ h
      · exact List.mem_append_right _ (mem_new_keys.mpr ⟨hk, h⟩)
    have hnk : BkDataInd.new_keys W' D = [] := new_keys_eq_nil hsub
    have htc : tc ∈ W'.cols := by
      rw [hW', patch_today_cols]
      exact mem_sortCols.mpr (mem_patch_cols.mpr (Or.inr rfl))
    have hpc : BkDataInd.patch_cols W' tc = W'.cols := by
      unfold BkDataInd.patch_cols
      rw [if_pos htc]
    have hcols2 : sortCols W'.cols = W'.cols := by
      rw [hW', patch_today_cols, sortCols_sortCols]
    have hval1 : ∀ r c, BkDataInd.patch_val1 W' D r c = W'.val r c := by
      intro r c
      unfold BkDataInd.patch_val1
      rw [hnk, if_neg (by simp)]
    have hval2 : ∀ r c, BkDataInd.patch_val2 W' D tc r c = W'.val r c := by
      intro r c
      unfold BkDataInd.patch_val2
      rw [if_pos htc]
      exact hval1 r c
    show sortColsW ⟨W'.rows ++ BkDataInd.new_keys W' D, BkDataInd.patch_cols W' tc,
      BkDataInd.patch_val3 W' D tc⟩ = W'
    unfold sortColsW
    refine Wide.ext ?_ ?_ ?_
    · rw [hnk]
      exact List.append_nil _
    · show sortCols (BkDataInd.patch_cols W' tc) = W'.cols
      rw [hpc, hcols2]
    · funext r c
      show BkDataInd.patch_val3 W' D tc r c = W'.val r c
      by_cases hne : c = tc
      · subst hne
        rcases hlook : lookupKey (BkDataInd.snapCells D) r with _ | s
        · rw [patch_val3_lookup_none hlook]
          exact hval2 r c
        · rw [patch_val3_lookup_some hlook]
          by_cases hse : s = ""
          · rw [if_pos hse]
            exact hval2 r c
          · rw [if_neg hse]
            rw [hW', patch_today_val, patch_val3_lookup_some hlook, if_neg hse]
      · rw [patch_val3_of_ne hne, patch_val2_of_ne hne]
        exact hval1 r c
  · intro W1 W2 h1 h2
    obtain ⟨hrows1, hin1, hout1⟩ := vis_patch_spec W D tc W1 h1
    have htc : tc ∈ W1.cols := by
      by_cases hc : tc ∈ W.cols
      · rw [(hin1 hc).1]
        exact mem_sortCols.mpr hc
      · rw [(hout1 hc).1]
        exact mem_sortCols.mpr (List.mem_append_right _ (by simp))
    obtain ⟨hrows2, hin2, _⟩ := vis_patch_spec W1 D tc W2 h2
    obtain ⟨hcols2, _, hvals2⟩ := hin2 htc
    have hcolsfix : sortCols W1.cols = W1.cols := by
      by_cases hc : tc ∈ W.cols
      · rw [(hin1 hc).1, sortCols_sortCols]
      · rw [(hout1 hc).1, sortCols_sortCols]
    refine Wide.ext ?_ ?_ ?_
    · rw [hrows2]
    · rw [hcols2, hcolsfix]
    · funext r c
      show W2.val r c = W1.val r c
      rw [hvals2 r c]
      by_cases hne : c = tc
      · subst hne
        rw [if_pos rfl]
        rcases hlook : lookupKey (BkFetchData.snapCells D) r with _ | s
        · rfl
        · show (if s = "" then W1.val r c else some s) = W1.val r c
          by_cases hse : s = ""
          · rw [if_pos hse]
          · rw [if_neg hse]
            by_cases hc : c ∈ W.cols
            · obtain ⟨_, _, hvals1⟩ := hin1 hc
              rw [hvals1 r c, if_pos rfl, hlook]
              show some s = (if s = "" then W.val r c else some s)
              rw [if_neg hse]
            · obtain ⟨_, hvals1⟩ := hout1 hc
              rw [hvals1 r c, if_pos rfl, hlook]
      · rw [if_neg hne]

/-- Witness for C8: a concrete table and snapshot on which both
bk_fetch_data.py patch applications succeed, and the second write equals
the first; together with the unconditional idempotence instance for the
bk_data_ind.py patch at the same input. -/
theorem claim_C8_witness :
    BkDataInd.patch_today (BkDataInd.patch_today
        ⟨["A|a"], ["2024-01-02"], fun _ _ => none⟩
        [{ bk_code := "A", bk_name := "a", close := none, pct_chg := none }]
        "2024-01-03")
      [{ bk_code := "A", bk_name := "a", close := none, pct_chg := none }]
      "2024-01-03" =
      BkDataInd.patch_today
        ⟨["A|a"], ["2024-01-02"], fun _ _ => none⟩
        [{ bk_code := "A", bk_name := "a", close := none, pct_chg := none }]
        "2024-01-03" ∧
    (BkFetchData.patch_today
        ⟨["A|a"], ["2024-01-02"], fun _ _ => none⟩
        [{ bk_code := "A", bk_name := "a", close := none, pct_chg := none }]
        "2024-01-03").bind
      (fun W1 => BkFetchData.patch_today W1
        [{ bk_code := "A", bk_name := "a", close := none, pct_chg := none }]
        "2024-01-03") =
      BkFetchData.patch_today
        ⟨["A|a"], ["2024-01-02"], fun _ _ => none⟩
        [{ bk_code := "A", bk_name := "a", close := none, pct_chg := none }]
        "2024-01-03" := by
  constructor
  · exact (claim_C8 ⟨["A|a"], ["2024-01-02"], fun _ _ => none⟩
      [{ bk_code := "A", bk_name := "a", close := none, pct_chg := none }]
      "2024-01-03").1
  · obtain ⟨W1, h1⟩ := vis_patch_isSome
      ⟨["A|a"], ["2024-01-02"], fun _ _ => none⟩
      [{ bk_code := "A", bk_name := "a", close := none, pct_chg := none }]
      "2024-01-03" (Or.inl (by decide))
    have hrows : W1.rows = ["A|a"] := (vis_patch_spec _ _ _ _ h1).1
    obtain ⟨W2, h2⟩ := vis_patch_isSome W1
      [{ bk_code := "A", bk_name := "a", close := none, pct_chg := none }]
      "2024-01-03" (Or.inr (by
        intro r hr
        rw [hrows] at hr
        simp only [List.mem_singleton] at hr
        subst hr
        decide))
    rw [h1, Option.some_bind, h2,
      (claim_C8 ⟨["A|a"], ["2024-01-02"], fun _ _ => none⟩
        [{ bk_code := "A", bk_name := "a", close := none, pct_chg := none }]
        "2024-01-03").2 W1 W2 h1 h2]

/-- C10: after the rank assignment of write_baseline (and of the
long-format assembler of rank_get_value.py, which uses the same groupby
rank call), within each trade date the ranks of the entries with a
non-missing pct_chg are exactly the integers 1 through k where k is the
number of such entries, with no gaps and no duplicates, and an entry with
strictly greater pct_chg always receives a strictly smaller rank than one
with lower pct_chg on the same date. -/
theorem claim_C10 (recs : List BaseRec) (dt : Date) :
    ((blRankSet recs dt).image (rankOf (blRankSet recs dt) (blPct recs)) =
      Finset.Icc 1 (blRankSet recs dt).card) ∧
    (∀ i ∈ blRankSet recs dt,
      blRank recs i = some (rankOf (blRankSet recs dt) (blPct recs) i)) ∧
    (∀ i ∈ blRankSet recs dt, ∀ j ∈ blRankSet recs dt,
      blPct recs i > blPct recs j →
        rankOf (blRankSet recs dt) (blPct recs) i <
          rankOf (blRankSet recs dt) (blPct recs) j) := by
  refine ⟨rankOf_image _ _, ?_, ?_⟩
  · intro i hi
    rcases Finset.mem_filter.mp hi with ⟨_, hdate, hsome⟩
    unfold blRank
    rw [if_pos hsome, hdate]
  · intro i hi j hj hgt
    exact rankOf_lt_rankOf _ _ hi (Or.inl hgt)

/-- Witness for C10 on a three-record frame for one date (pct 0, pct 1,
missing pct): the assigned ranks are exactly 1 and 2, the higher pct gets
rank 1, and the missing pct gets no rank. -/
theorem claim_C10_witness :
    ((blRankSet [⟨⟨2024, 1, 2⟩, some 0, none, "A", "a"⟩,
        ⟨⟨2024, 1, 2⟩, some 1, none, "B", "b"⟩,
        ⟨⟨2024, 1, 2⟩, none, none, "C", "c"⟩] ⟨2024, 1, 2⟩).image
      (rankOf (blRankSet [⟨⟨2024, 1, 2⟩, some 0, none, "A", "a"⟩,
        ⟨⟨2024, 1, 2⟩, some 1, none, "B", "b"⟩,
        ⟨⟨2024, 1, 2⟩, none, none, "C", "c"⟩] ⟨2024, 1, 2⟩)
        (blPct [⟨⟨2024, 1, 2⟩, some 0, none, "A", "a"⟩,
          ⟨⟨2024, 1, 2⟩, some 1, none, "B", "b"⟩,
          ⟨⟨2024, 1, 2⟩, none, none, "C", "c"⟩])) =
      Finset.Icc 1 (blRankSet [⟨⟨2024, 1, 2⟩, some 0, none, "A", "a"⟩,
        ⟨⟨2024, 1, 2⟩, some 1, none, "B", "b"⟩,
        ⟨⟨2024, 1, 2⟩, none, none, "C", "c"⟩] ⟨2024, 1, 2⟩).card) ∧
    rankOf (blRankSet [⟨⟨2024, 1, 2⟩, some 0, none, "A", "a"⟩,
        ⟨⟨2024, 1, 2⟩, some 1, none, "B", "b"⟩,
        ⟨⟨2024, 1, 2⟩, none, none, "C", "c"⟩] ⟨2024, 1, 2⟩)
      (blPct [⟨⟨2024, 1, 2⟩, some 0, none, "A", "a"⟩,
        ⟨⟨2024, 1, 2⟩, some 1, none, "B", "b"⟩,
        ⟨⟨2024, 1, 2⟩, none, none, "C", "c"⟩]) ⟨1, by norm_num⟩ <
    rankOf (blRankSet [⟨⟨2024, 1, 2⟩, some 0, none, "A", "a"⟩,
        ⟨⟨2024, 1, 2⟩, some 1, none, "B", "b"⟩,
        ⟨⟨2024, 1, 2⟩, none, none, "C", "c"⟩] ⟨2024, 1, 2⟩)
      (blPct [⟨⟨2024, 1, 2⟩, some 0, none, "A", "a"⟩,
        ⟨⟨2024, 1, 2⟩, some 1, none, "B", "b"⟩,
        ⟨⟨2024, 1, 2⟩, none, none, "C", "c"⟩]) ⟨0, by norm_num⟩ := by
  constructor
  · exact (claim_C10 [⟨⟨2024, 1, 2⟩, some 0, none, "A", "a"⟩,
      ⟨⟨2024, 1, 2⟩, some 1, none, "B", "b"⟩,
      ⟨⟨2024, 1, 2⟩, none, none, "C", "c"⟩] ⟨2024, 1, 2⟩).1
  · refine (claim_C10 [⟨⟨2024, 1, 2⟩, some 0, none, "A", "a"⟩,
      ⟨⟨2024, 1, 2⟩, some 1, none, "B", "b"⟩,
      ⟨⟨2024, 1, 2⟩, none, none, "C", "c"⟩] ⟨2024, 1, 2⟩).2.2
      ⟨1, by norm_num⟩ (by decide) ⟨0, by norm_num⟩ (by decide) ?_
    show blPct _ ⟨1, by norm_num⟩ > blPct _ ⟨0, by norm_num⟩
    simp [blPct]

theorem sortCols_colsDateSorted {cols : List String} (hnd : cols.Nodup) :
    colsDateSorted (sortCols cols) := by
  obtain ⟨dc, oc, heq, h1, h2, h3⟩ := sortCols_split cols hnd
  exact ⟨dc, oc, heq, h1, h2, h3⟩

theorem patch_cols_nodup {W : Wide} {tc : String} (h : W.cols.Nodup) :
    (BkDataInd.patch_cols W tc).Nodup := by
  unfold BkDataInd.patch_cols
  by_cases hc : tc ∈ W.cols
  · rw [if_pos hc]
    exact h
  · rw [if_neg hc]
    simp [List.nodup_append, h, hc]

theorem write_baseline_cols_sorted (recs : List BaseRec)
    (hvalid : ∀ r ∈ recs, (r.trade_date).Valid) :
    colsDateSorted (BkFetchData.write_baseline recs).table.cols := by
  have hdval : ∀ d ∈ (recs.map BaseRec.trade_date).dedup, d.Valid := by
    intro d hd
    rcases List.mem_map.mp (List.mem_dedup.mp hd) with ⟨r, hr, hrd⟩
    rw [← hrd]
    exact hvalid r hr
  have hmem : ∀ c ∈ insertionSort strLeB (((recs.map BaseRec.trade_date).dedup).map fmtDate),
      ∃ d, d ∈ (recs.map BaseRec.trade_date).dedup ∧ c = fmtDate d := by
    intro c hc
    rcases List.mem_map.mp ((mem_insertionSort _ _ _).mp hc) with ⟨d, hd, hdc⟩
    exact ⟨d, hd, hdc.symm⟩
  refine ⟨insertionSort strLeB (((recs.map BaseRec.trade_date).dedup).map fmtDate), [],
    (List.append_nil _).symm, ?_, by simp, ?_⟩
  · intro c hc
    obtain ⟨d, hd, hcd⟩ := hmem c hc
    rw [hcd, parseDate_fmtDate (hdval d hd)]
    rfl
  · have hsort := insertionSort_pairwise strLeB strLeB_total strLeB_trans
      (((recs.map BaseRec.trade_date).dedup).map fmtDate)
    have hinj : ∀ x ∈ (recs.map BaseRec.trade_date).dedup,
        ∀ y ∈ (recs.map BaseRec.trade_date).dedup, fmtDate x = fmtDate y → x = y := by
      intro x hx y hy hxy
      have hpx := parseDate_fmtDate (hdval x hx)
      have hpy := parseDate_fmtDate (hdval y hy)
      rw [hxy] at hpx
      rw [hpy] at hpx
      exact (Option.some_inj.mp hpx).symm
    have hnodup : (insertionSort strLeB
        (((recs.map BaseRec.trade_date).dedup).map fmtDate)).Nodup :=
      insertionSort_nodup _ _ (List.Nodup.map_on hinj (List.nodup_dedup _))
    have hne : (insertionSort strLeB
        (((recs.map BaseRec.trade_date).dedup).map fmtDate)).Pairwise (fun a b => a ≠ b) :=
      hnodup
    have hcomb := hsort.and hne
    have hR : (insertionSort strLeB
        (((recs.map BaseRec.trade_date).dedup).map fmtDate)).Pairwise
        (fun c1 c2 => ∀ d1 d2, parseDate c1 = some d1 → parseDate c2 = some d2 →
          dateLt d1 d2) := by
      refine List.Pairwise.imp_of_mem ?_ hcomb
      rintro c1 c2 hm1 hm2 ⟨hle, hcne⟩ d1 d2 hp1 hp2
      obtain ⟨e1, he1, hc1⟩ := hmem c1 hm1
      obtain ⟨e2, he2, hc2⟩ := hmem c2 hm2
      have hv1 := hdval e1 he1
      have hv2 := hdval e2 he2
      have hd1 : e1 = d1 := by
        rw [hc1, parseDate_fmtDate hv1] at hp1
        exact Option.some_inj.mp hp1
      have hd2 : e2 = d2 := by
        rw [hc2, parseDate_fmtDate hv2] at hp2
        exact Option.some_inj.mp hp2
      subst hd1
      subst hd2
      have hdle : dateLe e1 e2 := by
        rw [hc1, hc2] at hle
        exact (strLeB_fmtDate e1 e2 hv1 hv2).mp hle
      refine dateLt_of_le_of_ne hdle ?_
      intro hdeq
      apply hcne
      rw [hc1, hc2, hdeq]
    exact List.Pairwise.filterMap parseDate
      (fun a b hr x hx y hy => hr x y (by simpa using hx) (by simpa using hy)) hR

/-- C5: every wide table written by write_baseline or by either patch_today
has its date-parseable column names in strictly ascending date order with
all non-date columns after them, and is written with encoding utf-8-sig and
index label row_key.  The baseline hypotheses say the fetched trade dates
are well-formed calendar dates; the patch hypothesis says the table read
from the CSV has no duplicate column names (pandas read_csv deduplicates
them). -/
theorem claim_C5 (recs : List BaseRec) (W : Wide) (D : List TodayRec) (tc : String)
    (hvalid : ∀ r ∈ recs, (r.trade_date).Valid) (hnd : W.cols.Nodup) :
    (colsDateSorted (BkFetchData.write_baseline recs).table.cols ∧
      (BkFetchData.write_baseline recs).encoding = "utf-8-sig" ∧
      (BkFetchData.write_baseline recs).index_label = "row_key") ∧
    (colsDateSorted (BkDataInd.patch_today_out W D tc).table.cols ∧
      (BkDataInd.patch_today_out W D tc).encoding = "utf-8-sig" ∧
      (BkDataInd.patch_today_out W D tc).index_label = "row_key") ∧
    (∀ out, BkFetchData.patch_today_out W D tc = some out →
      colsDateSorted out.table.cols ∧
      out.encoding = "utf-8-sig" ∧ out.index_label = "row_key") := by
  refine ⟨⟨write_baseline_cols_sorted recs hvalid, rfl, rfl⟩, ⟨?_, rfl, rfl⟩, ?_⟩
  · show colsDateSorted (BkDataInd.patch_today W D tc).cols
    rw [patch_today_cols]
    exact sortCols_colsDateSorted (patch_cols_nodup hnd)
  · intro out hout
    unfold BkFetchData.patch_today_out at hout
    rcases hvis : BkFetchData.patch_today W D tc with _ | W'
    · rw [hvis] at hout
      simp at hout
    · rw [hvis] at hout
      have hout' : out = ⟨W', "utf-8-sig", "row_key"⟩ := by
        simpa using hout.symm
      subst hout'
      refine ⟨?_, rfl, rfl⟩
      show colsDateSorted W'.cols
      obtain ⟨_, hin, hout2⟩ := vis_patch_spec W D tc W' hvis
      by_cases hc : tc ∈ W.cols
      · rw [(hin hc).1]
        exact sortCols_colsDateSorted hnd
      · rw [(hout2 hc).1]
        refine sortCols_colsDateSorted ?_
        simp [List.nodup_append, hnd, hc]

/-- Witness for C5 at concrete inputs: a two-date baseline and a patch of a
new today column produce date columns in ascending order with the stated
encoding and label. -/
theorem claim_C5_witness :
    colsDateSorted (BkFetchData.write_baseline
      [⟨⟨2024, 1, 3⟩, some 0, none, "A", "a"⟩,
       ⟨⟨2024, 1, 2⟩, some 1, none, "A", "a"⟩]).table.cols ∧
    (BkFetchData.write_baseline
      [⟨⟨2024, 1, 3⟩, some 0, none, "A", "a"⟩,
       ⟨⟨2024, 1, 2⟩, some 1, none, "A", "a"⟩]).encoding = "utf-8-sig" ∧
    colsDateSorted (BkDataInd.patch_today_out
      ⟨["A|a"], ["2024-01-02"], fun _ _ => none⟩
      [{ bk_code := "A", bk_name := "a", close := none, pct_chg := none }]
      "2024-01-03").table.cols ∧
    (BkDataInd.patch_today_out
      ⟨["A|a"], ["2024-01-02"], fun _ _ => none⟩
      [{ bk_code := "A", bk_name := "a", close := none, pct_chg := none }]
      "2024-01-03").index_label = "row_key" := by
  have h := claim_C5
    [⟨⟨2024, 1, 3⟩, some 0, none, "A", "a"⟩,
     ⟨⟨2024, 1, 2⟩, some 1, none, "A", "a"⟩]
    ⟨["A|a"], ["2024-01-02"], fun _ _ => none⟩
    [{ bk_code := "A", bk_name := "a", close := none, pct_chg := none }]
    "2024-01-03"
    (by intro r hr
        fin_cases hr <;> decide)
    (by decide)
  exact ⟨h.1.1, h.1.2.1, h.2.1.1, h.2.1.2.2⟩
